import Mathlib

/-!
Shallow embedding of `eigentools/eigenproblem.py` (the `Eigenproblem` class):
the spurious-eigenvalue rejection engine `_discard_spurious_eigenvalues`, the
growth-rate extraction `growth_rate`, the eigenvalue selection in `solve`, and
the pseudospectrum grid fill `_pseudo`, together with theorems settling the
frozen claims about them.

Modelling conventions, stated once:

* A `complex128` array entry is modelled by `CEntry`: a pair of extended
  rationals (`QExt` = finite value, `+inf`, `-inf`, or `NaN`), since the code's
  own branching only ever distinguishes finite from non-finite entries
  (`np.isfinite`).  After the engine's finiteness filter all surviving values
  are finite pairs `Cplx = ℚ × ℚ`.  Rounding, overflow and signed zeros of
  IEEE-754 arithmetic are idealized away (exact arithmetic); the special
  values `inf`/`NaN` produced by division by zero and by `np.nanmin`, which
  the code relies on, are modelled exactly.

* `np.abs` on a complex array is the Euclidean modulus, whose values are
  irrational in general.  All engine definitions are therefore parametrized by
  an ordered field `K` of magnitudes and the modulus function
  `cabs : Cplx → K`; every theorem below holds for an arbitrary such `cabs`,
  in particular for the true instantiation `K = ℝ`, `cabs = euclidAbs`
  (defined below).  Witnesses instantiate `K = ℚ` with the computable `l1abs`,
  on inputs lying on the real axis, where `l1abs` coincides with the Euclidean
  modulus (lemma `l1abs_eq_euclidAbs_on_real_axis`).

* Python exceptions are modelled by `Except PyErr`; an uncaught exception is
  the `.error` value naming the Python exception class raised.
-/

namespace Eigentools

/-- One IEEE-754 double component, idealized: a finite rational, `+inf`,
`-inf`, or `NaN`. -/
inductive QExt : Type
  | fin (q : ℚ)
  | pinf
  | ninf
  | nan
  deriving DecidableEq, Repr

/-- One `complex128` array entry: real and imaginary components. -/
structure CEntry : Type where
  re : QExt
  im : QExt
  deriving DecidableEq, Repr

/-- A finite complex value (both components finite rationals). -/
abbrev Cplx : Type := ℚ × ℚ

/-- Is one component finite? -/
def QExt.isFin : QExt → Bool
  | .fin _ => true
  | _ => false

/-- `np.isfinite` on a complex entry: both components finite. -/
def CEntry.isFinite : CEntry → Bool
  | ⟨.fin _, .fin _⟩ => true
  | _ => false

/-- The finite value of an entry, when it has one. -/
def CEntry.toFin : CEntry → Option Cplx
  | ⟨.fin a, .fin b⟩ => some (a, b)
  | _ => none

/-- Build a finite entry from a finite complex value. -/
def CEntry.ofFin (z : Cplx) : CEntry := ⟨.fin z.1, .fin z.2⟩

/-- Complex subtraction on finite values. -/
def csub (a b : Cplx) : Cplx := (a.1 - b.1, a.2 - b.2)

/-- Python exception classes that the modelled code can raise. -/
inductive PyErr : Type
  | indexError
  | valueError
  | nameError
  | attributeError
  deriving DecidableEq, Repr

instance exceptDecEq {ε α : Type} [DecidableEq ε] [DecidableEq α] :
    DecidableEq (Except ε α)
  | .ok a, .ok b =>
    if h : a = b then .isTrue (by rw [h])
    else .isFalse (fun e => h (Except.ok.inj e))
  | .ok _, .error _ => .isFalse (fun h => Except.noConfusion h)
  | .error _, .ok _ => .isFalse (fun h => Except.noConfusion h)
  | .error e, .error e' =>
    if h : e = e' then .isTrue (by rw [h])
    else .isFalse (fun x => h (Except.error.inj x))

/-- An IEEE-754 double value over an idealized field `K` of finite values:
finite, `+inf`, `-inf`, or `NaN`. -/
inductive REx (K : Type) : Type
  | fin (x : K)
  | pinf
  | ninf
  | nan
  deriving DecidableEq, Repr

variable {K : Type} [LinearOrderedField K]

/-- Is this value `NaN`? -/
def REx.isNan : REx K → Bool
  | .nan => true
  | _ => false

/-- IEEE division of two finite values (`a / b` in numpy): exact quotient when
`b ≠ 0`; `a / 0` is `+inf`, `-inf` or `NaN` according to the sign of `a`
(signed zeros are idealized away, see the header). -/
def divK (a b : K) : REx K :=
  if b = 0 then (if 0 < a then .pinf else if a < 0 then .ninf else .nan)
  else .fin (a / b)

/-- IEEE reciprocal `1 / x` (numerator the float literal `1`): `1 / 0 = +inf`,
`1 / ±inf = 0`, `1 / NaN = NaN`. -/
def REx.inv1 : REx K → REx K
  | .fin b => if b = 0 then .pinf else .fin (1 / b)
  | .pinf => .fin 0
  | .ninf => .fin 0
  | .nan => .nan

/-- IEEE comparison `x > t` with `t` finite: `NaN` compares false. -/
def REx.gtc : REx K → K → Bool
  | .fin a, t => decide (t < a)
  | .pinf, _ => true
  | .ninf, _ => false
  | .nan, _ => false

/-- Minimum of two values, used only on non-`NaN` arguments (`NaN` inputs are
filtered out before this is folded, matching `np.nanmin`). -/
def REx.rmin : REx K → REx K → REx K
  | .nan, _ => .nan
  | _, .nan => .nan
  | .ninf, _ => .ninf
  | _, .ninf => .ninf
  | .pinf, x => x
  | x, .pinf => x
  | .fin a, .fin b => .fin (min a b)

/-- The value `np.nanmin` returns on a nonempty array: `NaN` (with a runtime
warning) when every entry is `NaN`, otherwise the least non-`NaN` entry. -/
def nanminV (l : List (REx K)) : REx K :=
  match l.filter (fun x => !x.isNan) with
  | [] => .nan
  | x :: xs => xs.foldl REx.rmin x

/-- `np.nanmin`: raises `ValueError` on an empty array, otherwise `nanminV`. -/
def nanminE (l : List (REx K)) : Except PyErr (REx K) :=
  if l.isEmpty then .error .valueError else .ok (nanminV l)

/-- The real Euclidean modulus computed by `np.abs` on `complex128`. -/
noncomputable def euclidAbs (z : Cplx) : ℝ :=
  Real.sqrt ((z.1 : ℝ) ^ 2 + (z.2 : ℝ) ^ 2)

/-- A computable stand-in modulus used by witnesses; it agrees with the
Euclidean modulus on the real axis. -/
def l1abs (z : Cplx) : ℚ := |z.1| + |z.2|

/-- On real-axis values (imaginary part zero) the witnesses' computable
modulus `l1abs` is exactly the Euclidean modulus `np.abs` computes. -/
theorem l1abs_eq_euclidAbs_on_real_axis (a : ℚ) :
    ((l1abs (a, 0) : ℚ) : ℝ) = euclidAbs (a, 0) := by
  simp only [l1abs, euclidAbs]
  rw [show ((a : ℝ) ^ 2 + ((0 : ℚ) : ℝ) ^ 2) = (a : ℝ) ^ 2 by push_cast; ring,
    Real.sqrt_sq_eq_abs]
  push_cast
  simp

/-! ### List helpers shared by the sort transcription and the engine -/

/-- Key lookup: the real part stored at position `i` of the key array
(out-of-range reads never happen on the executed paths). -/
def keyOf (ks : List ℚ) (i : ℕ) : ℚ := ks.getD i 0

/-- numpy fancy indexing `arr[idxs]`: gather the entries at the given
positions.  The index lists produced by `npArgsort` below are always in
bounds (`npArgsort_perm`), so the out-of-bounds-drop of `filterMap` is never
exercised. -/
def gather {α : Type} (l : List α) (idxs : List ℕ) : List α :=
  idxs.filterMap (fun i => l.get? i)

/-- `INTP_SWAP`: exchange the entries at positions `i` and `j` (identity when
either position is out of range, which never happens on executed paths). -/
def lswap (l : List ℕ) (i j : ℕ) : List ℕ :=
  if i = j then l
  else if max i j < l.length then
    l.take (min i j) ++ (l.getD (max i j) 0 ::
      ((l.drop (min i j + 1)).take (max i j - min i j - 1) ++
        (l.getD (min i j) 0 :: l.drop (max i j + 1))))
  else l

theorem perm_swap_ends {α : Type} (a b : α) (M T : List α) :
    List.Perm (a :: (M ++ b :: T)) (b :: (M ++ a :: T)) :=
  (List.Perm.cons a List.perm_middle).trans
    ((List.Perm.swap b a (M ++ T)).trans (List.Perm.cons b List.perm_middle.symm))

theorem decomp_two {α : Type} [Inhabited α] (l : List α) (p q : ℕ)
    (hpq : p < q) (hq : q < l.length) :
    l = l.take p ++ (l.getD p default ::
      ((l.drop (p + 1)).take (q - p - 1) ++ (l.getD q default :: l.drop (q + 1)))) := by
  have hp : p < l.length := lt_trans hpq hq
  have h1 : l.drop p = l.getD p default :: l.drop (p + 1) := by
    rw [List.getD_eq_getElem l default hp]
    exact List.drop_eq_getElem_cons hp
  have h3 : (l.drop (p + 1)).drop (q - p - 1) = l.drop q := by
    rw [List.drop_drop]
    congr 1
    omega
  have h4 : l.drop q = l.getD q default :: l.drop (q + 1) := by
    rw [List.getD_eq_getElem l default hq]
    exact List.drop_eq_getElem_cons hq
  have h2 : l.drop (p + 1) =
      (l.drop (p + 1)).take (q - p - 1) ++ (l.getD q default :: l.drop (q + 1)) := by
    conv_lhs => rw [← List.take_append_drop (q - p - 1) (l.drop (p + 1))]
    rw [h3, h4]
  conv_lhs => rw [← List.take_append_drop p l, h1, h2]

theorem lswap_perm (l : List ℕ) (i j : ℕ) : List.Perm (lswap l i j) l := by
  unfold lswap
  by_cases hij : i = j
  · simp [hij]
  · simp only [if_neg hij]
    by_cases hq : max i j < l.length
    · simp only [if_pos hq]
      have hpq : min i j < max i j := by omega
      have hl := decomp_two (α := ℕ) l (min i j) (max i j) hpq hq
      conv_rhs => rw [hl]
      exact List.Perm.append_left _ (perm_swap_ends _ _ _ _)
    · simp [hq]

theorem getD_eq_getElem?_getD {α : Type} (l : List α) (q : ℕ) (d : α) :
    l.getD q d = (l[q]?).getD d := by
  simp [List.getD]

theorem set_getD_self {α : Type} (l : List α) (d : α) {j : ℕ} (h : j < l.length) :
    l.set j (l.getD j d) = l := by
  apply List.ext_getElem
  · simp
  · intro k h1 h2
    rw [List.getElem_set]
    split
    · rename_i hk
      subst hk
      rw [List.getD_eq_getElem l d h]
    · rfl

theorem getD_set_self' {α : Type} (l : List α) (d v : α) {j : ℕ} (h : j < l.length) :
    (l.set j v).getD j d = v := by
  rw [getD_eq_getElem?_getD, List.getElem?_set_self h, Option.getD_some]

theorem getD_set_ne' {α : Type} (l : List α) (d v : α) {i j : ℕ} (h : i ≠ j) :
    (l.set i v).getD j d = l.getD j d := by
  rw [getD_eq_getElem?_getD, List.getElem?_set_ne h, ← getD_eq_getElem?_getD]

theorem getD_replicate {α : Type} (v d : α) {n m : ℕ} (h : m < n) :
    (List.replicate n v).getD m d = v := by
  rw [List.getD_eq_getElem _ d (by simpa using h)]
  simp

/-!
### `np.argsort(..., kind='quicksort')`

The engine sorts with `np.argsort(eval_low_and_indx[:, 0].real)` (default
`kind='quicksort'`).  In the numpy 1.x generation this repository targets
(it still uses `np.int` and `np.linalg.linalg`), that is the introsort
`aquicksort` of `npysort/quicksort.c.src`: median-of-3 Hoare partitioning with
`SMALL_QUICKSORT = 15` (segments of at most 16 entries are insertion-sorted),
a single depth counter initialised to `2 * npy_get_msb(n)` and decremented at
every partition, falling back to `aheapsort` when it goes negative, and the
smaller partition processed first (the larger one is pushed on the stack).

The transcription below keeps every swap of the C code (`lswap`); the
insertion-sort inner loop (shift right-neighbours while strictly greater,
then write the saved element) is transcribed by its net effect on the
segment, `insIdx`, inserting each element after all earlier elements with a
key less than or equal to its own; the heapsort sift (save `tmp`, move the
larger child up, write `tmp` at the final hole) is transcribed as the
net-identical swap walk `siftD`.  Loops are fuel-bounded; the fuel bounds are
proved never reached (`scanUp_spec` / `scanDown_spec`: the scans stop at the
pivot sentinels).  The theorems below establish that every path — insertion
sort, partition recursion, and the heapsort fallback — permutes its segment
and sorts it ascending by key, and that the insertion path is moreover
stable.
-/

/-- Key of the entry stored at position `p` of the working index array. -/
def entKey (ks : List ℚ) (t : List ℕ) (p : ℕ) : ℚ := keyOf ks (t.getD p 0)

/-- Key of the entry at 1-based heap position `p` (numpy offsets the array by
one for heap indexing). -/
def key1 (ks : List ℚ) (t : List ℕ) (p : ℕ) : ℚ := entKey ks t (p - 1)

/-- `do ++pi; while (LT(v[*pi], vp));` -/
def scanUp (ks : List ℚ) (t : List ℕ) (vp : ℚ) : ℕ → ℕ → ℕ
  | 0, pi => pi + 1
  | fuel + 1, pi =>
    if entKey ks t (pi + 1) < vp then scanUp ks t vp fuel (pi + 1) else pi + 1

/-- `do --pj; while (LT(vp, v[*pj]));` -/
def scanDown (ks : List ℚ) (t : List ℕ) (vp : ℚ) : ℕ → ℕ → ℕ
  | 0, pj => pj - 1
  | fuel + 1, pj =>
    if vp < entKey ks t (pj - 1) then scanDown ks t vp fuel (pj - 1) else pj - 1

/-- The Hoare partition walk: advance `pi`, retreat `pj`, swap while they have
not crossed; returns the final array and crossing point `pi`. -/
def partLoop (ks : List ℚ) (vp : ℚ) : ℕ → List ℕ → ℕ → ℕ → List ℕ × ℕ
  | 0, t, pi, _ => (t, pi)
  | fuel + 1, t, pi, pj =>
    let pi' := scanUp ks t vp t.length pi
    let pj' := scanDown ks t vp t.length pj
    if pj' ≤ pi' then (t, pi') else partLoop ks vp fuel (lswap t pi' pj') pi' pj'

/-- Split the partitioned array at the pivot position `p`: entries left of
`p`, the pivot entry, entries right of `p`.  The defensive second branch is
never taken on executed paths (the crossing point is always interior). -/
def recompose (t : List ℕ) (p : ℕ) : List ℕ × ℕ × List ℕ :=
  if p < t.length then (t.take p, t.getD p 0, t.drop (p + 1))
  else ([], t.headD 0, t.tail)

/-- One `aquicksort` partition step on a segment (`pl = 0`, `pr = m - 1`):
median-of-3 pivot selection with its three conditional swaps, pivot parked at
`pr - 1`, the Hoare walk, and the final swap placing the pivot at the
crossing point.  Returns the entries left of the pivot, the pivot entry, and
the entries right of it.  The defensive final branch is never taken on
executed paths (the crossing point is always interior). -/
def partitionSeg (ks : List ℚ) (seg : List ℕ) : List ℕ × ℕ × List ℕ :=
  let m := seg.length
  let pm := (m - 1) / 2
  let t1 := if entKey ks seg pm < entKey ks seg 0 then lswap seg pm 0 else seg
  let t2 := if entKey ks t1 (m - 1) < entKey ks t1 pm then lswap t1 (m - 1) pm else t1
  let t3 := if entKey ks t2 pm < entKey ks t2 0 then lswap t2 pm 0 else t2
  let vp := entKey ks t3 pm
  let t4 := lswap t3 pm (m - 2)
  let r := partLoop ks vp m t4 0 (m - 2)
  recompose (lswap r.1 r.2 (m - 2)) r.2

/-- Net effect of the C insertion-sort inner loop for one element: insert `i`
into the (sorted) prefix after every element whose key is at most its own. -/
def insIdx (ks : List ℚ) (i : ℕ) : List ℕ → List ℕ
  | [] => [i]
  | j :: rest =>
    if keyOf ks i < keyOf ks j then i :: j :: rest else j :: insIdx ks i rest

/-- The small-segment insertion sort of `aquicksort` (segments of at most
`SMALL_QUICKSORT + 1 = 16` entries): left-to-right insertion into the sorted
prefix. -/
def insertionPass (ks : List ℚ) (seg : List ℕ) : List ℕ :=
  seg.foldl (fun acc i => insIdx ks i acc) []

/-- `aheapsort` sift-down from 1-based position `i` with child `j`, heap size
`n`, as the swap walk net-identical to the C `tmp`-shift loop. -/
def siftD (ks : List ℚ) : ℕ → List ℕ → ℕ → ℕ → ℕ → List ℕ
  | 0, t, _, _, _ => t
  | fuel + 1, t, i, j, n =>
    if j ≤ n then
      let j' := if j < n ∧ key1 ks t j < key1 ks t (j + 1) then j + 1 else j
      if key1 ks t i < key1 ks t j' then siftD ks fuel (lswap t (i - 1) (j' - 1)) j' (2 * j') n
      else t
    else t

/-- `aheapsort` on a segment: heapify, then repeatedly swap the root to the
end and sift. -/
def heapsortPass (ks : List ℚ) (seg : List ℕ) : List ℕ :=
  let n := seg.length
  let h1 := (List.range (n / 2)).foldl
    (fun t k => siftD ks n t (n / 2 - k) (2 * (n / 2 - k)) n) seg
  (List.range (n - 1)).foldl
    (fun t k => siftD ks n (lswap t (n - k - 1) 0) 1 2 (n - k - 1)) h1

/-- The `aquicksort` outer machine: insertion sort for segments of at most 16
entries, heapsort once the depth counter `dl` has gone negative (the counter
is decremented at every partition and threaded through the traversal in
numpy's order: smaller partition first), otherwise partition and recurse.
`fuel` bounds the recursion depth; `ks.length + 1` suffices since every
partition shrinks the segment. -/
def introAux (ks : List ℚ) : ℕ → List ℕ → ℤ → List ℕ × ℤ
  | 0, seg, dl => (seg, dl)
  | fuel + 1, seg, dl =>
    if seg.length ≤ 16 then (insertionPass ks seg, dl)
    else if dl < 0 then (heapsortPass ks seg, dl - 1)
    else
      let P := partitionSeg ks seg
      if P.1.length < P.2.2.length then
        let a := introAux ks fuel P.1 (dl - 1)
        let b := introAux ks fuel P.2.2 a.2
        (a.1 ++ P.2.1 :: b.1, b.2)
      else
        let a := introAux ks fuel P.2.2 (dl - 1)
        let b := introAux ks fuel P.1 a.2
        (b.1 ++ P.2.1 :: a.1, b.2)

/-- `np.argsort(ks, kind='quicksort')` on a 1-D float array `ks`: the index
list produced by `aquicksort` with depth limit `2 * npy_get_msb(n)`. -/
def npArgsort (ks : List ℚ) : List ℕ :=
  (introAux ks (ks.length + 1) (List.range ks.length)
    (2 * (Nat.log2 ks.length : ℤ))).1

/-! ### The argsort output is a permutation of the index range -/

theorem ite_lswap_perm (c : Prop) [Decidable c] (t : List ℕ) (i j : ℕ) :
    List.Perm (if c then lswap t i j else t) t := by
  split
  · exact lswap_perm t i j
  · exact .refl _

theorem insIdx_perm (ks : List ℚ) (i : ℕ) :
    ∀ acc : List ℕ, List.Perm (insIdx ks i acc) (i :: acc)
  | [] => .refl _
  | j :: rest => by
    unfold insIdx
    split
    · exact .refl _
    · exact ((insIdx_perm ks i rest).cons j).trans (List.Perm.swap i j rest)

theorem foldl_insIdx_perm (ks : List ℚ) :
    ∀ (seg acc : List ℕ),
      List.Perm (seg.foldl (fun a i => insIdx ks i a) acc) (acc ++ seg)
  | [], acc => by simp
  | i :: seg, acc => by
    simp only [List.foldl_cons]
    exact (foldl_insIdx_perm ks seg (insIdx ks i acc)).trans
      (((insIdx_perm ks i acc).append_right seg).trans List.perm_middle.symm)

theorem insertionPass_perm (ks : List ℚ) (seg : List ℕ) :
    List.Perm (insertionPass ks seg) seg := by
  simpa using foldl_insIdx_perm ks seg []

theorem partLoop_perm (ks : List ℚ) (vp : ℚ) :
    ∀ (fuel : ℕ) (t : List ℕ) (pi pj : ℕ),
      List.Perm (partLoop ks vp fuel t pi pj).1 t
  | 0, t, pi, pj => .refl _
  | fuel + 1, t, pi, pj => by
    simp only [partLoop]
    split
    · exact .refl _
    · exact (partLoop_perm ks vp fuel _ _ _).trans (lswap_perm _ _ _)

theorem recompose_perm (t : List ℕ) (p : ℕ) (hne : t ≠ []) :
    List.Perm ((recompose t p).1 ++ (recompose t p).2.1 :: (recompose t p).2.2) t := by
  unfold recompose
  split
  · rename_i h
    have heq : t.take p ++ t.getD p 0 :: t.drop (p + 1) = t := by
      conv_rhs => rw [← List.take_append_drop p t]
      congr 1
      rw [List.getD_eq_getElem t 0 h]
      exact (List.drop_eq_getElem_cons h).symm
    rw [heq]
  · cases t with
    | nil => exact absurd rfl hne
    | cons a as => exact .refl _

theorem partitionSeg_perm (ks : List ℚ) (seg : List ℕ) (hne : seg ≠ []) :
    List.Perm ((partitionSeg ks seg).1 ++
      (partitionSeg ks seg).2.1 :: (partitionSeg ks seg).2.2) seg := by
  have key : ∀ (t6 : List ℕ) (p : ℕ), List.Perm t6 seg →
      List.Perm ((recompose t6 p).1 ++
        (recompose t6 p).2.1 :: (recompose t6 p).2.2) seg := by
    intro t6 p h
    have ht6 : t6 ≠ [] := by
      intro e
      subst e
      have hl := h.length_eq
      exact hne (List.length_eq_zero.mp hl.symm)
    exact (recompose_perm t6 p ht6).trans h
  unfold partitionSeg
  exact key _ _ ((lswap_perm _ _ _).trans ((partLoop_perm _ _ _ _ _ _).trans
    ((lswap_perm _ _ _).trans ((ite_lswap_perm _ _ _ _).trans
      ((ite_lswap_perm _ _ _ _).trans (ite_lswap_perm _ _ _ _))))))

theorem siftD_perm (ks : List ℚ) :
    ∀ (fuel : ℕ) (t : List ℕ) (i j n : ℕ), List.Perm (siftD ks fuel t i j n) t
  | 0, t, i, j, n => .refl _
  | fuel + 1, t, i, j, n => by
    simp only [siftD]
    split
    · split
      · split
        · exact (siftD_perm ks fuel _ _ _ _).trans (lswap_perm _ _ _)
        · exact .refl _
      · split
        · exact (siftD_perm ks fuel _ _ _ _).trans (lswap_perm _ _ _)
        · exact .refl _
    · exact .refl _

theorem foldl_perm_stable {β : Type} (f : List ℕ → β → List ℕ)
    (hf : ∀ t b, List.Perm (f t b) t) :
    ∀ (l : List β) (t : List ℕ), List.Perm (l.foldl f t) t
  | [], t => .refl _
  | b :: l, t => by
    simp only [List.foldl_cons]
    exact (foldl_perm_stable f hf l (f t b)).trans (hf t b)

theorem heapsortPass_perm (ks : List ℚ) (seg : List ℕ) :
    List.Perm (heapsortPass ks seg) seg := by
  unfold heapsortPass
  exact (foldl_perm_stable _ (fun t k => (siftD_perm ks _ _ _ _ _).trans
      (lswap_perm _ _ _)) _ _).trans
    (foldl_perm_stable _ (fun t k => siftD_perm ks _ _ _ _ _) _ _)

theorem introAux_perm (ks : List ℚ) :
    ∀ (fuel : ℕ) (seg : List ℕ) (dl : ℤ), List.Perm (introAux ks fuel seg dl).1 seg
  | 0, seg, dl => .refl _
  | fuel + 1, seg, dl => by
    simp only [introAux]
    by_cases h16 : seg.length ≤ 16
    · simpa [h16] using insertionPass_perm ks seg
    · simp only [if_neg h16]
      by_cases hdl : dl < 0
      · simpa [hdl] using heapsortPass_perm ks seg
      · simp only [if_neg hdl]
        have hne : seg ≠ [] := by
          intro e
          rw [e] at h16
          simp at h16
        have hp := partitionSeg_perm ks seg hne
        split
        · exact ((introAux_perm ks fuel _ _).append
            ((introAux_perm ks fuel _ _).cons _)).trans hp
        · exact ((introAux_perm ks fuel _ _).append
            ((introAux_perm ks fuel _ _).cons _)).trans hp

/-- The index list `np.argsort` returns is a permutation of `0, ..., n - 1`;
in particular every index is in bounds and each position occurs exactly
once. -/
theorem npArgsort_perm (ks : List ℚ) :
    List.Perm (npArgsort ks) (List.range ks.length) := by
  unfold npArgsort
  exact introAux_perm ks _ _ _

theorem npArgsort_length (ks : List ℚ) : (npArgsort ks).length = ks.length := by
  simpa using (npArgsort_perm ks).length_eq

theorem npArgsort_mem_lt (ks : List ℚ) {i : ℕ} (hi : i ∈ npArgsort ks) :
    i < ks.length := by
  have := (npArgsort_perm ks).mem_iff.mp hi
  exact List.mem_range.mp this

/-!
### Stability of the sort (claim C6)

`specStableArgsort` is the order the specification describes: ascending by
key, ties broken by original position.  Index lists carrying distinct
positions admit exactly one ordering sorted under `lexLE`, so "stable sort by
real part" and "sorted under `lexLE`" coincide.
-/

/-- Ascending by key, ties broken by original position — the order a stable
ascending sort of the keys produces on indices. -/
def lexLE (ks : List ℚ) (i j : ℕ) : Prop :=
  keyOf ks i < keyOf ks j ∨ (keyOf ks i = keyOf ks j ∧ i ≤ j)

instance lexLE.decRel (ks : List ℚ) : DecidableRel (lexLE ks) := fun i j => by
  unfold lexLE
  exact inferInstance

instance lexLE.total (ks : List ℚ) : IsTotal ℕ (lexLE ks) := by
  constructor
  intro i j
  rcases lt_trichotomy (keyOf ks i) (keyOf ks j) with h | h | h
  · exact Or.inl (Or.inl h)
  · rcases Nat.le_total i j with hij | hij
    · exact Or.inl (Or.inr ⟨h, hij⟩)
    · exact Or.inr (Or.inr ⟨h.symm, hij⟩)
  · exact Or.inr (Or.inl h)

instance lexLE.trans (ks : List ℚ) : IsTrans ℕ (lexLE ks) := by
  constructor
  intro i j k hij hjk
  rcases hij with h1 | ⟨h1, h1'⟩ <;> rcases hjk with h2 | ⟨h2, h2'⟩
  · exact Or.inl (h1.trans h2)
  · exact Or.inl (h2 ▸ h1)
  · exact Or.inl (h1 ▸ h2)
  · exact Or.inr ⟨h1.trans h2, h1'.trans h2'⟩

instance lexLE.antisymm (ks : List ℚ) : IsAntisymm ℕ (lexLE ks) := by
  constructor
  intro i j hij hji
  rcases hij with h1 | ⟨h1, h1'⟩ <;> rcases hji with h2 | ⟨h2, h2'⟩
  · exact absurd (h1.trans h2) (lt_irrefl _)
  · exact absurd h1 (h2 ▸ lt_irrefl _)
  · exact absurd h2 (h1 ▸ lt_irrefl _)
  · exact Nat.le_antisymm h1' h2'

/-- The order the spec requires: the stable ascending argsort of the keys,
i.e. the unique `lexLE`-sorted arrangement of the positions. -/
def specStableArgsort (ks : List ℚ) : List ℕ :=
  List.insertionSort (lexLE ks) (List.range ks.length)

theorem insIdx_sorted (ks : List ℚ) (i : ℕ) :
    ∀ acc : List ℕ, List.Sorted (lexLE ks) acc → (∀ j ∈ acc, j < i) →
      List.Sorted (lexLE ks) (insIdx ks i acc)
  | [], _, _ => List.sorted_singleton i
  | j :: rest, hacc, hlt => by
    rw [List.sorted_cons] at hacc
    unfold insIdx
    split
    · rename_i hkey
      rw [List.sorted_cons]
      constructor
      · intro b hb
        rcases List.mem_cons.mp hb with rfl | hb'
        · exact Or.inl hkey
        · rcases hacc.1 b hb' with h | ⟨h, _⟩
          · exact Or.inl (hkey.trans h)
          · exact Or.inl (h ▸ hkey)
      · rw [List.sorted_cons]
        exact hacc
    · rename_i hkey
      rw [List.sorted_cons]
      constructor
      · intro b hb
        rcases List.mem_cons.mp ((insIdx_perm ks i rest).mem_iff.mp hb) with h | h
        · subst h
          rcases lt_or_eq_of_le (le_of_not_lt hkey) with h' | h'
          · exact Or.inl h'
          · exact Or.inr ⟨h', le_of_lt (hlt j (List.mem_cons_self j rest))⟩
        · exact hacc.1 b h
      · exact insIdx_sorted ks i rest hacc.2
          (fun b hb => hlt b (List.mem_cons_of_mem j hb))

theorem foldl_insIdx_sorted (ks : List ℚ) :
    ∀ (seg acc : List ℕ), List.Sorted (lexLE ks) acc →
      (∀ j ∈ acc, ∀ i ∈ seg, j < i) → List.Pairwise (· < ·) seg →
      List.Sorted (lexLE ks) (seg.foldl (fun a i => insIdx ks i a) acc)
  | [], acc, hacc, _, _ => hacc
  | i :: seg, acc, hacc, hcross, hseg => by
    simp only [List.foldl_cons]
    rw [List.pairwise_cons] at hseg
    refine foldl_insIdx_sorted ks seg (insIdx ks i acc) ?_ ?_ hseg.2
    · exact insIdx_sorted ks i acc hacc
        (fun j hj => hcross j hj i (List.mem_cons_self i seg))
    · intro j hj i' hi'
      rcases List.mem_cons.mp ((insIdx_perm ks i acc).mem_iff.mp hj) with h | h
      · exact h ▸ hseg.1 i' hi'
      · exact hcross j h i' (List.mem_cons_of_mem i hi')

theorem insertionPass_sorted (ks : List ℚ) (seg : List ℕ)
    (h : List.Pairwise (· < ·) seg) :
    List.Sorted (lexLE ks) (insertionPass ks seg) := by
  unfold insertionPass
  exact foldl_insIdx_sorted ks seg [] (List.sorted_nil) (by simp) h

/-- For arrays of at most 16 entries `aquicksort` runs its insertion-sort
path, which produces exactly the stable ascending-by-key order. -/
theorem npArgsort_eq_stable_of_small (ks : List ℚ) (h : ks.length ≤ 16) :
    npArgsort ks = specStableArgsort ks := by
  have h1 : npArgsort ks = insertionPass ks (List.range ks.length) := by
    simp [npArgsort, introAux, List.length_range, h]
  rw [h1]
  refine List.eq_of_perm_of_sorted
    ((insertionPass_perm ks _).trans (List.perm_insertionSort (lexLE ks) _).symm)
    (insertionPass_sorted ks _ (List.pairwise_lt_range _))
    (List.sorted_insertionSort (lexLE ks) _)

/-!
### The argsort output is sorted ascending by key (arbitrary arrays)

`aquicksort` really sorts: the Hoare partition puts keys at most the pivot's
left of it and keys at least the pivot's right of it, small segments are
insertion-sorted, and the depth-limit fallback `aheapsort` sorts its segment.
The lemmas below establish each piece and glue them along `introAux`.
-/

theorem lswap_length (l : List ℕ) (i j : ℕ) :
    (lswap l i j).length = l.length := by
  unfold lswap
  split
  · rfl
  · split
    · simp only [List.length_append, List.length_cons, List.length_take,
        List.length_drop]
      omega
    · rfl

theorem lswap_core (l : List ℕ) {p q : ℕ} (hpq : p < q) (hq : q < l.length) :
    lswap l p q = (l.set p (l.getD q 0)).set q (l.getD p 0) := by
  have hp : p < l.length := lt_trans hpq hq
  unfold lswap
  rw [if_neg (by omega : ¬ p = q), if_pos (by omega : max p q < l.length),
    show min p q = p by omega, show max p q = q by omega]
  have hlt : p ≤ l.length := le_of_lt hp
  have hM : ((l.drop (p + 1)).take (q - p - 1)).length = q - p - 1 := by
    simp only [List.length_take, List.length_drop]
    omega
  have hT : p = (l.take p).length := by simp [List.length_take]; omega
  apply List.ext_getElem?
  intro n
  by_cases h1 : n < p
  · rw [List.getElem?_append_left (by simp [List.length_take]; omega),
      List.getElem?_take, if_pos h1,
      List.getElem?_set_ne (by omega : q ≠ n),
      List.getElem?_set_ne (by omega : p ≠ n)]
  · rw [List.getElem?_append_right (by simp [List.length_take]; omega)]
    by_cases h2 : n = p
    · subst h2
      rw [show n - (l.take n).length = 0 by simp [List.length_take]; omega,
        List.getElem?_cons_zero,
        List.getElem?_set_ne (by omega : q ≠ n),
        List.getElem?_set_self (by simpa using hp)]
    · rw [show n - (l.take p).length = (n - p - 1) + 1 by
        simp [List.length_take]; omega, List.getElem?_cons_succ]
      by_cases h3 : n < q
      · rw [List.getElem?_append_left (by rw [hM]; omega),
          List.getElem?_take, if_pos (by omega : n - p - 1 < q - p - 1),
          List.getElem?_drop,
          show p + 1 + (n - p - 1) = n by omega,
          List.getElem?_set_ne (by omega : q ≠ n),
          List.getElem?_set_ne (by omega : p ≠ n)]
      · rw [List.getElem?_append_right (by rw [hM]; omega)]
        by_cases h4 : n = q
        · subst h4
          rw [show n - p - 1 - ((l.drop (p + 1)).take (n - p - 1)).length = 0 by
              rw [hM]; omega,
            List.getElem?_cons_zero,
            List.getElem?_set_self (by simpa [List.length_set] using hq)]
        · rw [show n - p - 1 - ((l.drop (p + 1)).take (q - p - 1)).length =
              (n - q - 1) + 1 by rw [hM]; omega,
            List.getElem?_cons_succ, List.getElem?_drop,
            show q + 1 + (n - q - 1) = n by omega,
            List.getElem?_set_ne (by omega : q ≠ n),
            List.getElem?_set_ne (by omega : p ≠ n)]

theorem lswap_eq_set_set (l : List ℕ) {i j : ℕ} (hi : i < l.length)
    (hj : j < l.length) :
    lswap l i j = (l.set i (l.getD j 0)).set j (l.getD i 0) := by
  rcases lt_trichotomy i j with h | h | h
  · exact lswap_core l h hj
  · subst h
    rw [show lswap l i i = l from by unfold lswap; rw [if_pos rfl],
      List.set_set, set_getD_self l 0 hi]
  · rw [show lswap l i j = lswap l j i from by
        unfold lswap
        rw [if_neg (by omega : ¬ i = j), if_neg (by omega : ¬ j = i),
          Nat.max_comm, Nat.min_comm],
      lswap_core l h hi, List.set_comm _ _ _ (by omega : j ≠ i)]

theorem lswap_getD_fst (l : List ℕ) {i j : ℕ} (hi : i < l.length)
    (hj : j < l.length) : (lswap l i j).getD i 0 = l.getD j 0 := by
  rw [lswap_eq_set_set l hi hj]
  by_cases h : i = j
  · subst h
    rw [getD_set_self' _ _ _ (by simpa [List.length_set] using hi)]
  · rw [getD_set_ne' _ _ _ (by omega : j ≠ i),
      getD_set_self' _ _ _ hi]

theorem lswap_getD_snd (l : List ℕ) {i j : ℕ} (hi : i < l.length)
    (hj : j < l.length) : (lswap l i j).getD j 0 = l.getD i 0 := by
  rw [lswap_eq_set_set l hi hj,
    getD_set_self' _ _ _ (by simpa [List.length_set] using hj)]

theorem lswap_getD_other (l : List ℕ) {i j c : ℕ} (hi : i < l.length)
    (hj : j < l.length) (hc1 : c ≠ i) (hc2 : c ≠ j) :
    (lswap l i j).getD c 0 = l.getD c 0 := by
  rw [lswap_eq_set_set l hi hj,
    getD_set_ne' _ _ _ (by omega : j ≠ c),
    getD_set_ne' _ _ _ (by omega : i ≠ c)]

theorem entKey_lswap_fst (ks : List ℚ) (t : List ℕ) {i j : ℕ}
    (hi : i < t.length) (hj : j < t.length) :
    entKey ks (lswap t i j) i = entKey ks t j := by
  unfold entKey
  rw [lswap_getD_fst t hi hj]

theorem entKey_lswap_snd (ks : List ℚ) (t : List ℕ) {i j : ℕ}
    (hi : i < t.length) (hj : j < t.length) :
    entKey ks (lswap t i j) j = entKey ks t i := by
  unfold entKey
  rw [lswap_getD_snd t hi hj]

theorem entKey_lswap_other (ks : List ℚ) (t : List ℕ) {i j c : ℕ}
    (hi : i < t.length) (hj : j < t.length) (hc1 : c ≠ i) (hc2 : c ≠ j) :
    entKey ks (lswap t i j) c = entKey ks t c := by
  unfold entKey
  rw [lswap_getD_other t hi hj hc1 hc2]

/-- `scanUp` stops exactly at the first position after `pi` whose key is not
below the pivot, provided the fuel reaches it. -/
theorem scanUp_spec (ks : List ℚ) (t : List ℕ) (vp : ℚ) :
    ∀ (fuel pi q : ℕ), pi < q → ¬ entKey ks t q < vp →
      (∀ r, pi < r → r < q → entKey ks t r < vp) → q ≤ pi + fuel →
      scanUp ks t vp fuel pi = q
  | 0, pi, q, h1, _, _, h4 => absurd h4 (by omega)
  | fuel + 1, pi, q, h1, h2, h3, h4 => by
    unfold scanUp
    by_cases hc : entKey ks t (pi + 1) < vp
    · rw [if_pos hc]
      have hne : q ≠ pi + 1 := fun e => h2 (e ▸ hc)
      exact scanUp_spec ks t vp fuel (pi + 1) q (by omega) h2
        (fun r hr1 hr2 => h3 r (by omega) hr2) (by omega)
    · rw [if_neg hc]
      by_contra hne
      exact hc (h3 (pi + 1) (by omega) (by omega))

/-- `scanDown` stops exactly at the first position before `pj` whose key is
not above the pivot, provided the fuel reaches it. -/
theorem scanDown_spec (ks : List ℚ) (t : List ℕ) (vp : ℚ) :
    ∀ (fuel pj q : ℕ), q < pj → ¬ vp < entKey ks t q →
      (∀ r, q < r → r < pj → vp < entKey ks t r) → pj ≤ q + fuel →
      scanDown ks t vp fuel pj = q
  | 0, pj, q, h1, _, _, h4 => absurd h4 (by omega)
  | fuel + 1, pj, q, h1, h2, h3, h4 => by
    unfold scanDown
    by_cases hc : vp < entKey ks t (pj - 1)
    · rw [if_pos hc]
      have hne : q ≠ pj - 1 := fun e => h2 (e ▸ hc)
      exact scanDown_spec ks t vp fuel (pj - 1) q (by omega) h2
        (fun r hr1 hr2 => h3 r hr1 (by omega)) (by omega)
    · rw [if_neg hc]
      by_contra hne
      exact hc (h3 (pj - 1) (by omega) (by omega))

theorem exists_greatest_below (P : ℕ → Prop) [DecidablePred P] :
    ∀ b : ℕ, (∃ q, q ≤ b ∧ P q) →
      ∃ q, q ≤ b ∧ P q ∧ ∀ r, q < r → r ≤ b → ¬ P r := by
  intro b
  induction b with
  | zero =>
    rintro ⟨q, hq, hPq⟩
    exact ⟨0, le_refl 0, by rwa [Nat.le_zero.mp hq] at hPq,
      fun r h1 h2 => absurd (lt_of_lt_of_le h1 h2) (lt_irrefl 0)⟩
  | succ b ih =>
    rintro ⟨q, hq, hPq⟩
    by_cases hPb : P (b + 1)
    · exact ⟨b + 1, le_refl _, hPb,
        fun r h1 h2 => absurd (lt_of_lt_of_le h1 h2) (lt_irrefl _)⟩
    · have hq' : q ≤ b := by
        rcases Nat.lt_or_ge q (b + 1) with h | h
        · omega
        · exact absurd (show P (b + 1) by rwa [show q = b + 1 by omega] at hPq) hPb
      obtain ⟨g, hg1, hg2, hg3⟩ := ih ⟨q, hq', hPq⟩
      refine ⟨g, by omega, hg2, fun r h1 h2 => ?_⟩
      by_cases hr : r ≤ b
      · exact hg3 r h1 hr
      · rwa [show r = b + 1 by omega]

/-- The Hoare walk invariant: starting from a state whose prefix up to `pi`
is at most the pivot, whose suffix from `pj` on is at least the pivot, and
whose position `length - 2` holds the pivot key, the walk ends at an interior
crossing point with everything left of it at most the pivot, everything from
it on at least the pivot, and the pivot sentinel untouched. -/
theorem partLoop_spec (ks : List ℚ) (vp : ℚ) :
    ∀ (fuel : ℕ) (t : List ℕ) (pi pj : ℕ),
      pi < pj → pj + 2 ≤ t.length → pj ≤ fuel →
      (∀ q, q ≤ pi → entKey ks t q ≤ vp) →
      (∀ q, pj ≤ q → q < t.length → vp ≤ entKey ks t q) →
      entKey ks t (t.length - 2) = vp →
      pi < (partLoop ks vp fuel t pi pj).2 ∧
      (partLoop ks vp fuel t pi pj).2 + 2 ≤ t.length ∧
      entKey ks (partLoop ks vp fuel t pi pj).1 (t.length - 2) = vp ∧
      (∀ q, q < (partLoop ks vp fuel t pi pj).2 →
        entKey ks (partLoop ks vp fuel t pi pj).1 q ≤ vp) ∧
      (∀ q, (partLoop ks vp fuel t pi pj).2 ≤ q → q < t.length →
        vp ≤ entKey ks (partLoop ks vp fuel t pi pj).1 q)
  | 0, t, pi, pj, h1, h2, h3, _, _, _ => absurd h3 (by omega)
  | fuel + 1, t, pi, pj, h1, h2, h3, hA, hB, hS => by
    have hPex : ∃ q, pi < q ∧ ¬ entKey ks t q < vp :=
      ⟨t.length - 2, by omega, by rw [hS]; exact lt_irrefl vp⟩
    set qu := Nat.find hPex with hqudef
    obtain ⟨hqu1, hqu2⟩ := Nat.find_spec hPex
    have hqu3 : qu ≤ t.length - 2 :=
      Nat.find_min' hPex ⟨by omega, by rw [hS]; exact lt_irrefl vp⟩
    have hqu4 : ∀ r, pi < r → r < qu → entKey ks t r < vp := by
      intro r hr1 hr2
      by_contra hc
      exact absurd (Nat.find_min' hPex ⟨hr1, hc⟩) (by omega)
    have hup : scanUp ks t vp t.length pi = qu :=
      scanUp_spec ks t vp t.length pi qu hqu1 hqu2 hqu4 (by omega)
    obtain ⟨qd, hqd1, hqd2, hqd3⟩ := exists_greatest_below
      (fun q => ¬ vp < entKey ks t q) (pj - 1)
      ⟨0, by omega, not_lt.mpr (hA 0 (Nat.zero_le pi))⟩
    have hqd4 : ∀ r, qd < r → r < pj → vp < entKey ks t r :=
      fun r hr1 hr2 => not_not.mp (hqd3 r hr1 (by omega))
    have hdn : scanDown ks t vp t.length pj = qd :=
      scanDown_spec ks t vp t.length pj qd (by omega) hqd2 hqd4 (by omega)
    simp only [partLoop]
    rw [hup, hdn]
    by_cases hcross : qd ≤ qu
    · rw [if_pos hcross]
      refine ⟨hqu1, by omega, hS, ?_, ?_⟩
      · intro q hq
        rcases Nat.lt_or_ge q (pi + 1) with h | h
        · exact hA q (by omega)
        · exact le_of_lt (hqu4 q (by omega) hq)
      · intro q hq1 hq2
        rcases Nat.lt_or_ge q pj with h | h
        · rcases Nat.eq_or_lt_of_le hq1 with h' | h'
          · rw [← h']
            exact not_lt.mp hqu2
          · exact le_of_lt (hqd4 q (by omega) h)
        · exact hB q h hq2
    · rw [if_neg hcross]
      have hqud : qu < qd := by omega
      have hqu_lt : qu < t.length := by omega
      have hqd_lt : qd < t.length := by omega
      have hlen : (lswap t qu qd).length = t.length := lswap_length t qu qd
      have hrec := partLoop_spec ks vp fuel (lswap t qu qd) qu qd hqud
        (by rw [hlen]; omega) (by omega)
        (by
          intro q hq
          rcases Nat.eq_or_lt_of_le hq with h | h
          · rw [h, entKey_lswap_fst ks t hqu_lt hqd_lt]
            exact not_lt.mp hqd2
          · rw [entKey_lswap_other ks t hqu_lt hqd_lt (by omega) (by omega)]
            rcases Nat.lt_or_ge q (pi + 1) with h' | h'
            · exact hA q (by omega)
            · exact le_of_lt (hqu4 q (by omega) h))
        (by
          intro q hq1 hq2
          rcases Nat.eq_or_lt_of_le hq1 with h | h
          · rw [← h, entKey_lswap_snd ks t hqu_lt hqd_lt]
            exact not_lt.mp hqu2
          · rw [entKey_lswap_other ks t hqu_lt hqd_lt (by omega) (by omega)]
            rcases Nat.lt_or_ge q pj with h' | h'
            · exact le_of_lt (hqd4 q (by omega) h')
            · exact hB q h' (by rwa [hlen] at hq2))
        (by
          rw [hlen, entKey_lswap_other ks t hqu_lt hqd_lt (by omega) (by omega)]
          exact hS)
      rw [hlen] at hrec
      exact ⟨by omega, hrec.2.1, hrec.2.2.1, hrec.2.2.2.1, hrec.2.2.2.2⟩

/-- One `aquicksort` partition step on a large segment: both sides are
strictly smaller, every key left of the pivot is at most the pivot key and
every key right of it is at least the pivot key. -/
theorem partitionSeg_spec (ks : List ℚ) (seg : List ℕ) (hm : 17 ≤ seg.length) :
    (partitionSeg ks seg).1.length < seg.length ∧
    (partitionSeg ks seg).2.2.length < seg.length ∧
    (∀ i ∈ (partitionSeg ks seg).1,
      keyOf ks i ≤ keyOf ks (partitionSeg ks seg).2.1) ∧
    (∀ i ∈ (partitionSeg ks seg).2.2,
      keyOf ks (partitionSeg ks seg).2.1 ≤ keyOf ks i) := by
  simp only [partitionSeg]
  set pm := (seg.length - 1) / 2 with hpm
  set t1 := if entKey ks seg pm < entKey ks seg 0 then lswap seg pm 0 else seg
    with ht1
  have ht1len : t1.length = seg.length := by
    rw [ht1]
    split
    · exact lswap_length seg pm 0
    · rfl
  have h1 : entKey ks t1 0 ≤ entKey ks t1 pm ∧
      entKey ks t1 (seg.length - 1) = entKey ks seg (seg.length - 1) := by
    rw [ht1]
    split
    · rename_i hc
      rw [entKey_lswap_snd ks seg (by omega) (by omega),
        entKey_lswap_fst ks seg (by omega) (by omega),
        entKey_lswap_other ks seg (by omega) (by omega) (by omega) (by omega)]
      exact ⟨le_of_lt hc, rfl⟩
    · rename_i hc
      exact ⟨not_lt.mp hc, rfl⟩
  set t2 := if entKey ks t1 (seg.length - 1) < entKey ks t1 pm then
      lswap t1 (seg.length - 1) pm else t1 with ht2
  have ht2len : t2.length = seg.length := by
    rw [ht2]
    split
    · rw [lswap_length, ht1len]
    · exact ht1len
  have h2 : entKey ks t2 pm ≤ entKey ks t2 (seg.length - 1) ∧
      entKey ks t2 0 = entKey ks t1 0 ∧
      ((entKey ks t2 pm = entKey ks t1 pm ∧
        entKey ks t2 (seg.length - 1) = entKey ks t1 (seg.length - 1)) ∨
       (entKey ks t2 pm = entKey ks t1 (seg.length - 1) ∧
        entKey ks t2 (seg.length - 1) = entKey ks t1 pm)) := by
    rw [ht2]
    split
    · rename_i hc
      rw [entKey_lswap_fst ks t1 (by omega) (by omega),
        entKey_lswap_snd ks t1 (by omega) (by omega),
        entKey_lswap_other ks t1 (by omega) (by omega) (by omega) (by omega)]
      exact ⟨le_of_lt hc, rfl, Or.inr ⟨rfl, rfl⟩⟩
    · rename_i hc
      exact ⟨not_lt.mp hc, rfl, Or.inl ⟨rfl, rfl⟩⟩
  set t3 := if entKey ks t2 pm < entKey ks t2 0 then lswap t2 pm 0 else t2
    with ht3
  have ht3len : t3.length = seg.length := by
    rw [ht3]
    split
    · rw [lswap_length, ht2len]
    · exact ht2len
  have h3 : entKey ks t3 0 ≤ entKey ks t3 pm ∧
      entKey ks t3 pm ≤ entKey ks t3 (seg.length - 1) := by
    rw [ht3]
    split
    · rename_i hc
      rw [entKey_lswap_snd ks t2 (by omega) (by omega),
        entKey_lswap_fst ks t2 (by omega) (by omega),
        entKey_lswap_other ks t2 (by omega) (by omega) (by omega) (by omega)]
      refine ⟨le_of_lt hc, ?_⟩
      rcases h2.2.2 with ⟨e1, e2⟩ | ⟨e1, e2⟩
      · linarith [h1.1, h2.2.1, e1, hc]
      · linarith [h1.1, h2.2.1, e2]
    · rename_i hc
      exact ⟨not_lt.mp hc, h2.1⟩
  set vp := entKey ks t3 pm with hvp
  set t4 := lswap t3 pm (seg.length - 2) with ht4
  have ht4len : t4.length = seg.length := by rw [ht4, lswap_length, ht3len]
  have h40 : entKey ks t4 0 ≤ vp := by
    rw [ht4, entKey_lswap_other ks t3 (by omega) (by omega) (by omega) (by omega),
      hvp]
    exact h3.1
  have h4S : entKey ks t4 (seg.length - 2) = vp := by
    rw [ht4, entKey_lswap_snd ks t3 (by omega) (by omega), hvp]
  have h4r : vp ≤ entKey ks t4 (seg.length - 1) := by
    rw [ht4, entKey_lswap_other ks t3 (by omega) (by omega) (by omega) (by omega),
      hvp]
    exact h3.2
  set r := partLoop ks vp seg.length t4 0 (seg.length - 2) with hr
  obtain ⟨hp1, hp2, hp3, hp5, hp6⟩ := partLoop_spec ks vp seg.length t4 0
    (seg.length - 2) (by omega) (by omega) (by omega)
    (fun q hq => by rw [Nat.le_zero.mp hq]; exact h40)
    (by
      intro q hq1 hq2
      rw [ht4len] at hq2
      by_cases he : q = seg.length - 2
      · rw [he]
        exact le_of_eq h4S.symm
      · rw [show q = seg.length - 1 by omega]
        exact h4r)
    (by rw [ht4len]; exact h4S)
  rw [ht4len] at hp2 hp3 hp6
  have hr1len : r.1.length = seg.length := by
    rw [hr]
    exact ((partLoop_perm ks vp seg.length t4 0 (seg.length - 2)).length_eq).trans
      ht4len
  set p := r.2 with hpdef
  set t6 := lswap r.1 p (seg.length - 2) with ht6
  have ht6len : t6.length = seg.length := by rw [ht6, lswap_length, hr1len]
  have hk_p : entKey ks t6 p = vp := by
    rw [ht6, entKey_lswap_fst ks r.1 (by omega) (by omega)]
    exact hp3
  have hk_left : ∀ q, q < p → entKey ks t6 q ≤ vp := by
    intro q hq
    rw [ht6, entKey_lswap_other ks r.1 (by omega) (by omega) (by omega) (by omega)]
    exact hp5 q hq
  have hk_right : ∀ q, p < q → q < seg.length → vp ≤ entKey ks t6 q := by
    intro q hq1 hq2
    by_cases he : q = seg.length - 2
    · rw [he, ht6, entKey_lswap_snd ks r.1 (by omega) (by omega)]
      exact hp6 p (le_refl p) (by omega)
    · rw [ht6, entKey_lswap_other ks r.1 (by omega) (by omega) (by omega)
        (by omega)]
      exact hp6 q (le_of_lt hq1) (by omega)
  have hkp' : keyOf ks (t6.getD p 0) = vp := hk_p
  have hrcmp : recompose t6 p = (t6.take p, t6.getD p 0, t6.drop (p + 1)) := by
    unfold recompose
    rw [if_pos (by omega : p < t6.length)]
  rw [hrcmp]
  refine ⟨?_, ?_, ?_, ?_⟩
  · show (t6.take p).length < seg.length
    rw [List.length_take]
    omega
  · show (t6.drop (p + 1)).length < seg.length
    rw [List.length_drop]
    omega
  · show ∀ i ∈ t6.take p, keyOf ks i ≤ keyOf ks (t6.getD p 0)
    intro i hi
    obtain ⟨q, hq, he⟩ := List.mem_iff_getElem.mp hi
    have hq' : q < p := by
      rw [List.length_take] at hq
      omega
    have h2' := hk_left q hq'
    unfold entKey at h2'
    rw [List.getD_eq_getElem t6 0 (by omega)] at h2'
    rw [← he, List.getElem_take, hkp']
    exact h2'
  · show ∀ i ∈ t6.drop (p + 1), keyOf ks (t6.getD p 0) ≤ keyOf ks i
    intro i hi
    obtain ⟨q, hq, he⟩ := List.mem_iff_getElem.mp hi
    have hq' : p + 1 + q < seg.length := by
      rw [List.length_drop] at hq
      omega
    have h2' := hk_right (p + 1 + q) (by omega) hq'
    unfold entKey at h2'
    rw [List.getD_eq_getElem t6 0 (by omega)] at h2'
    rw [← he, List.getElem_drop, hkp']
    exact h2'

/-- Inserting into a key-sorted accumulator keeps it key-sorted (no
hypothesis on the inserted position, unlike the stability lemma). -/
theorem insIdx_sorted_key (ks : List ℚ) (i : ℕ) :
    ∀ acc : List ℕ, List.Pairwise (fun a b => keyOf ks a ≤ keyOf ks b) acc →
      List.Pairwise (fun a b => keyOf ks a ≤ keyOf ks b) (insIdx ks i acc)
  | [], _ => by simp [insIdx]
  | j :: rest, hacc => by
    rw [List.pairwise_cons] at hacc
    unfold insIdx
    split
    · rename_i hkey
      rw [List.pairwise_cons]
      refine ⟨?_, List.pairwise_cons.mpr hacc⟩
      intro b hb
      rcases List.mem_cons.mp hb with rfl | hb'
      · exact le_of_lt hkey
      · exact le_of_lt (lt_of_lt_of_le hkey (hacc.1 b hb'))
    · rename_i hkey
      rw [List.pairwise_cons]
      refine ⟨?_, insIdx_sorted_key ks i rest hacc.2⟩
      intro b hb
      rcases List.mem_cons.mp ((insIdx_perm ks i rest).mem_iff.mp hb) with rfl | hb'
      · exact not_lt.mp hkey
      · exact hacc.1 b hb'

theorem foldl_insIdx_sorted_key (ks : List ℚ) :
    ∀ (seg acc : List ℕ),
      List.Pairwise (fun a b => keyOf ks a ≤ keyOf ks b) acc →
      List.Pairwise (fun a b => keyOf ks a ≤ keyOf ks b)
        (seg.foldl (fun a i => insIdx ks i a) acc)
  | [], _, hacc => hacc
  | i :: seg, acc, hacc => by
    simp only [List.foldl_cons]
    exact foldl_insIdx_sorted_key ks seg _ (insIdx_sorted_key ks i acc hacc)

theorem insertionPass_sorted_key (ks : List ℚ) (seg : List ℕ) :
    List.Pairwise (fun a b => keyOf ks a ≤ keyOf ks b) (insertionPass ks seg) := by
  unfold insertionPass
  exact foldl_insIdx_sorted_key ks seg [] List.Pairwise.nil

/-! 1-based views of the swap, as `aheapsort` addresses the array. -/

theorem key1_lswap_fst (ks : List ℚ) (t : List ℕ) {a b : ℕ} (ha : 1 ≤ a)
    (ha' : a ≤ t.length) (hb : 1 ≤ b) (hb' : b ≤ t.length) :
    key1 ks (lswap t (a - 1) (b - 1)) a = key1 ks t b := by
  unfold key1
  exact entKey_lswap_fst ks t (by omega) (by omega)

theorem key1_lswap_snd (ks : List ℚ) (t : List ℕ) {a b : ℕ} (ha : 1 ≤ a)
    (ha' : a ≤ t.length) (hb : 1 ≤ b) (hb' : b ≤ t.length) :
    key1 ks (lswap t (a - 1) (b - 1)) b = key1 ks t a := by
  unfold key1
  exact entKey_lswap_snd ks t (by omega) (by omega)

theorem key1_lswap_other (ks : List ℚ) (t : List ℕ) {a b c : ℕ} (ha : 1 ≤ a)
    (ha' : a ≤ t.length) (hb : 1 ≤ b) (hb' : b ≤ t.length) (hc : 1 ≤ c)
    (hc1 : c ≠ a) (hc2 : c ≠ b) :
    key1 ks (lswap t (a - 1) (b - 1)) c = key1 ks t c := by
  unfold key1
  exact entKey_lswap_other ks t (by omega) (by omega) (by omega) (by omega)

/-- Thread an invariant through a `foldl` over `List.range m`. -/
theorem foldl_range_invariant {α : Type} (f : α → ℕ → α) (P : ℕ → α → Prop) :
    ∀ m : ℕ, (∀ k a, k < m → P k a → P (k + 1) (f a k)) →
      ∀ a, P 0 a → P m ((List.range m).foldl f a)
  | 0, _, _, h0 => h0
  | m + 1, hstep, a, h0 => by
    rw [List.range_succ, List.foldl_append, List.foldl_cons, List.foldl_nil]
    exact hstep m _ (by omega)
      (foldl_range_invariant f P m (fun k b hk => hstep k b (by omega)) a h0)

theorem drop_eq_of_getD_eq {a b : List ℕ} (n : ℕ) (hlen : a.length = b.length)
    (h : ∀ q, n ≤ q → a.getD q 0 = b.getD q 0) : a.drop n = b.drop n := by
  apply List.ext_getElem
  · simp [hlen]
  · intro k h1 h2
    have hk : n + k < a.length := by
      rw [List.length_drop] at h1
      omega
    rw [List.getElem_drop, List.getElem_drop]
    have hg := h (n + k) (by omega)
    rw [List.getD_eq_getElem a 0 hk, List.getD_eq_getElem b 0 (by omega)] at hg
    exact hg

theorem take_perm_of_perm {a b : List ℕ} (n : ℕ) (hperm : List.Perm a b)
    (hdrop : a.drop n = b.drop n) : List.Perm (a.take n) (b.take n) := by
  rw [List.perm_iff_count]
  intro x
  have h1 := List.perm_iff_count.mp hperm x
  have h2 : List.count x (a.take n) + List.count x (a.drop n) = List.count x a := by
    rw [← List.count_append, List.take_append_drop]
  have h3 : List.count x (b.take n) + List.count x (b.drop n) = List.count x b := by
    rw [← List.count_append, List.take_append_drop]
  rw [hdrop] at h2
  omega

theorem getD_mem_take {t : List ℕ} {p h : ℕ} (hp : p < h) (hh : h ≤ t.length) :
    t.getD p 0 ∈ t.take h := by
  have hp' : p < (t.take h).length := by
    simp only [List.length_take]
    omega
  have hplen : p < t.length := by omega
  have he : (t.take h)[p] = t[p] := List.getElem_take t
  rw [List.getD_eq_getElem t 0 hplen, ← he]
  exact List.getElem_mem hp'

theorem mem_take_iff_pos {t : List ℕ} {h : ℕ} (hh : h ≤ t.length) (x : ℕ) :
    x ∈ t.take h ↔ ∃ p, p < h ∧ t.getD p 0 = x := by
  constructor
  · intro hx
    obtain ⟨q, hq, he⟩ := List.mem_iff_getElem.mp hx
    rw [List.length_take] at hq
    refine ⟨q, by omega, ?_⟩
    rw [List.getD_eq_getElem t 0 (by omega)]
    rw [List.getElem_take] at he
    exact he
  · rintro ⟨p, hp, he⟩
    rw [← he]
    exact getD_mem_take hp hh

/-- The root of a heap-ordered prefix carries its largest key. -/
theorem heap_root_max (ks : List ℚ) (t : List ℕ) (h : ℕ)
    (hheap : ∀ c, 2 ≤ c → c ≤ h → key1 ks t c ≤ key1 ks t (c / 2)) :
    ∀ c, 1 ≤ c → c ≤ h → key1 ks t c ≤ key1 ks t 1 := by
  intro c
  induction c using Nat.strong_induction_on with
  | _ c ih =>
    intro hc1 hc2
    by_cases hc : c = 1
    · rw [hc]
    · exact le_trans (hheap c (by omega) hc2)
        (ih (c / 2) (by omega) (by omega) (by omega))

/-- `siftD` restores the heap order at its start node: if every relevant
parent-child edge except those out of `i` is heap-ordered, and (below the
start) the grandparent over the hole dominates `i`'s children, then after the
sift every relevant edge is heap-ordered; positions at or beyond the heap
size are untouched. -/
theorem siftD_spec (ks : List ℚ) (i0 : ℕ) (h0 : 1 ≤ i0) :
    ∀ (fuel : ℕ) (t : List ℕ) (i j n : ℕ),
      j = 2 * i → i0 ≤ i → n ≤ t.length → n + 1 ≤ fuel + j →
      (∀ c, 2 ≤ c → c ≤ n → i0 ≤ c / 2 → c / 2 ≠ i →
        key1 ks t c ≤ key1 ks t (c / 2)) →
      (i0 < i → ∀ c, 2 ≤ c → c ≤ n → c / 2 = i →
        key1 ks t c ≤ key1 ks t (i / 2)) →
      (∀ c, 2 ≤ c → c ≤ n → i0 ≤ c / 2 →
        key1 ks (siftD ks fuel t i j n) c ≤
          key1 ks (siftD ks fuel t i j n) (c / 2)) ∧
      (∀ q, n ≤ q → (siftD ks fuel t i j n).getD q 0 = t.getD q 0)
  | 0, t, i, j, n, hji, hi, hn, hfuel, hA, _ => by
    simp only [siftD]
    refine ⟨?_, fun q hq => by simp⟩
    intro c hc1 hc2 hc3
    by_cases hc4 : c / 2 = i
    · exact absurd hc2 (by omega)
    · exact hA c hc1 hc2 hc3 hc4
  | fuel + 1, t, i, j, n, hji, hi, hn, hfuel, hA, hB => by
    simp only [siftD]
    by_cases hjn : j ≤ n
    · rw [if_pos hjn]
      have hi1 : 1 ≤ i := le_trans h0 hi
      have main : ∀ j1 : ℕ, j1 / 2 = i → j ≤ j1 → j1 ≤ n →
          key1 ks t j ≤ key1 ks t j1 →
          (j + 1 ≤ n → key1 ks t (j + 1) ≤ key1 ks t j1) →
          (∀ c, 2 ≤ c → c ≤ n → i0 ≤ c / 2 →
            key1 ks (if key1 ks t i < key1 ks t j1 then
                siftD ks fuel (lswap t (i - 1) (j1 - 1)) j1 (2 * j1) n else t)
                c ≤
              key1 ks (if key1 ks t i < key1 ks t j1 then
                siftD ks fuel (lswap t (i - 1) (j1 - 1)) j1 (2 * j1) n else t)
                (c / 2)) ∧
          (∀ q, n ≤ q →
            (if key1 ks t i < key1 ks t j1 then
              siftD ks fuel (lswap t (i - 1) (j1 - 1)) j1 (2 * j1) n
            else t).getD q 0 = t.getD q 0) := by
        intro j1 hj1i hjj1 hj1n hkj hkj1
        by_cases hswap : key1 ks t i < key1 ks t j1
        · rw [if_pos hswap]
          have hj1pos : 1 ≤ j1 := by omega
          have hij1 : i < j1 := by omega
          have e_i : key1 ks (lswap t (i - 1) (j1 - 1)) i = key1 ks t j1 :=
            key1_lswap_fst ks t hi1 (by omega) hj1pos (by omega)
          have e_j1 : key1 ks (lswap t (i - 1) (j1 - 1)) j1 = key1 ks t i :=
            key1_lswap_snd ks t hi1 (by omega) hj1pos (by omega)
          have e_other : ∀ c, 1 ≤ c → c ≠ i → c ≠ j1 →
              key1 ks (lswap t (i - 1) (j1 - 1)) c = key1 ks t c :=
            fun c hc hca hcb =>
              key1_lswap_other ks t hi1 (by omega) hj1pos (by omega) hc hca hcb
          have hrec := siftD_spec ks i0 h0 fuel (lswap t (i - 1) (j1 - 1)) j1
            (2 * j1) n rfl (by omega) (by rw [lswap_length]; exact hn) (by omega)
            (by
              intro c hc1 hc2 hc3 hc4
              by_cases hp_i : c / 2 = i
              · rw [hp_i, e_i]
                by_cases hcj1 : c = j1
                · rw [hcj1, e_j1]
                  exact le_of_lt hswap
                · rw [e_other c (by omega) (by omega) hcj1]
                  have hcj : c = j ∨ c = j + 1 := by omega
                  rcases hcj with rfl | rfl
                  · exact hkj
                  · exact hkj1 hc2
              · by_cases hci : c = i
                · subst hci
                  rw [e_i, e_other (c / 2) (by omega) hp_i hc4]
                  have hii0 : i0 < c := by omega
                  exact hB hii0 j1 (by omega) hj1n hj1i
                · by_cases hcj1 : c = j1
                  · exact absurd (hcj1 ▸ hj1i) hp_i
                  · rw [e_other c (by omega) hci hcj1,
                      e_other (c / 2) (by omega) hp_i hc4]
                    exact hA c hc1 hc2 hc3 hp_i)
            (by
              intro hj1gt c hc1 hc2 hcp
              rw [hj1i, e_i]
              have hcne : c ≠ i := by omega
              have hcne2 : c ≠ j1 := by omega
              rw [e_other c (by omega) hcne hcne2, ← hcp]
              exact hA c hc1 hc2 (by omega) (by omega))
          refine ⟨hrec.1, fun q hq => ?_⟩
          rw [hrec.2 q hq]
          exact lswap_getD_other t (by omega) (by omega) (by omega) (by omega)
        · rw [if_neg hswap]
          refine ⟨?_, fun q hq => rfl⟩
          intro c hc1 hc2 hc3
          by_cases hc4 : c / 2 = i
          · rw [hc4]
            have hcj : c = j ∨ c = j + 1 := by omega
            rcases hcj with rfl | rfl
            · exact le_trans hkj (not_lt.mp hswap)
            · exact le_trans (hkj1 hc2) (not_lt.mp hswap)
          · exact hA c hc1 hc2 hc3 hc4
      by_cases hcc : j < n ∧ key1 ks t j < key1 ks t (j + 1)
      · rw [if_pos hcc]
        exact main (j + 1) (by omega) (by omega) (by omega) (le_of_lt hcc.2)
          (fun _ => le_refl _)
      · rw [if_neg hcc]
        exact main j (by omega) (le_refl j) hjn (le_refl _)
          (fun h1 => not_lt.mp (fun hk => hcc ⟨by omega, hk⟩))
    · rw [if_neg hjn]
      refine ⟨?_, fun q hq => by simp⟩
      intro c hc1 hc2 hc3
      by_cases hc4 : c / 2 = i
      · exact absurd hc2 (by omega)
      · exact hA c hc1 hc2 hc3 hc4

/-- One `aheapsort` extraction step: swap the root behind the shrinking heap
and sift; the heap order, the sortedness of the tail and the heap-below-tail
bound all carry to the smaller heap. -/
theorem heap_extract_step (ks : List ℚ) (n k : ℕ) (t : List ℕ) (hk : k < n - 1)
    (hlen : t.length = n)
    (hI1 : ∀ c, 2 ≤ c → c ≤ n - k → key1 ks t c ≤ key1 ks t (c / 2))
    (hI2 : ∀ p q, n - k ≤ p → p ≤ q → q < n → entKey ks t p ≤ entKey ks t q)
    (hI3 : ∀ x ∈ t.take (n - k), ∀ q, n - k ≤ q → q < n →
      keyOf ks x ≤ entKey ks t q) :
    (siftD ks n (lswap t (n - k - 1) 0) 1 2 (n - k - 1)).length = n ∧
    (∀ c, 2 ≤ c → c ≤ n - (k + 1) →
      key1 ks (siftD ks n (lswap t (n - k - 1) 0) 1 2 (n - k - 1)) c ≤
        key1 ks (siftD ks n (lswap t (n - k - 1) 0) 1 2 (n - k - 1)) (c / 2)) ∧
    (∀ p q, n - (k + 1) ≤ p → p ≤ q → q < n →
      entKey ks (siftD ks n (lswap t (n - k - 1) 0) 1 2 (n - k - 1)) p ≤
        entKey ks (siftD ks n (lswap t (n - k - 1) 0) 1 2 (n - k - 1)) q) ∧
    (∀ x ∈ (siftD ks n (lswap t (n - k - 1) 0) 1 2 (n - k - 1)).take
        (n - (k + 1)),
      ∀ q, n - (k + 1) ≤ q → q < n →
        keyOf ks x ≤
          entKey ks (siftD ks n (lswap t (n - k - 1) 0) 1 2 (n - k - 1)) q) := by
  have hnk : n - (k + 1) = n - k - 1 := by omega
  rw [hnk]
  set t1 := lswap t (n - k - 1) 0 with ht1def
  have hlen1 : t1.length = n := by rw [ht1def, lswap_length, hlen]
  have e_fst : entKey ks t1 (n - k - 1) = entKey ks t 0 := by
    rw [ht1def]
    exact entKey_lswap_fst ks t (by omega) (by omega)
  have e_snd : entKey ks t1 0 = entKey ks t (n - k - 1) := by
    rw [ht1def]
    exact entKey_lswap_snd ks t (by omega) (by omega)
  have e_oth : ∀ q, q ≠ n - k - 1 → q ≠ 0 → entKey ks t1 q = entKey ks t q := by
    intro q h1 h2
    rw [ht1def]
    exact entKey_lswap_other ks t (by omega) (by omega) h1 h2
  have k_oth : ∀ c, 2 ≤ c → c ≠ n - k → key1 ks t1 c = key1 ks t c := by
    intro c h1 h2
    show entKey ks t1 (c - 1) = entKey ks t (c - 1)
    exact e_oth (c - 1) (by omega) (by omega)
  have hsift := siftD_spec ks 1 (le_refl 1) n t1 1 2 (n - k - 1) rfl (le_refl 1)
    (by omega) (by omega)
    (by
      intro c hc1 hc2 hc3 hc4
      rw [k_oth c hc1 (by omega), k_oth (c / 2) (by omega) (by omega)]
      exact hI1 c hc1 (by omega))
    (fun hlt => absurd hlt (lt_irrefl 1))
  set T := siftD ks n t1 1 2 (n - k - 1) with hTdef
  have hlenT : T.length = t1.length :=
    (siftD_perm ks n t1 1 2 (n - k - 1)).length_eq
  have eT : ∀ x, n - k - 1 ≤ x → entKey ks T x = entKey ks t1 x := by
    intro x hx
    show keyOf ks (T.getD x 0) = keyOf ks (t1.getD x 0)
    rw [hsift.2 x hx]
  have htp : List.Perm (T.take (n - k - 1)) (t1.take (n - k - 1)) :=
    take_perm_of_perm _ (siftD_perm ks n t1 1 2 (n - k - 1))
      (drop_eq_of_getD_eq _ hlenT hsift.2)
  refine ⟨hlenT.trans hlen1, ?_, ?_, ?_⟩
  · intro c hc1 hc2
    exact hsift.1 c hc1 (by omega) (by omega)
  · intro p q hp hpq hq
    rw [eT p (by omega), eT q (by omega)]
    by_cases hpe : p = n - k - 1
    · subst hpe
      rw [e_fst]
      by_cases hqe : q = n - k - 1
      · rw [hqe, e_fst]
      · rw [e_oth q (by omega) (by omega)]
        exact hI3 (t.getD 0 0) (getD_mem_take (by omega) (by omega)) q
          (by omega) hq
    · rw [e_oth p (by omega) (by omega), e_oth q (by omega) (by omega)]
      exact hI2 p q (by omega) hpq hq
  · intro x hx q hq1 hq2
    rw [eT q (by omega)]
    have hxt1 : x ∈ t1.take (n - k - 1) := htp.mem_iff.mp hx
    obtain ⟨p, hp, hpe⟩ := (mem_take_iff_pos (by omega) x).mp hxt1
    have hkx : keyOf ks x = entKey ks t1 p := by
      rw [← hpe]
      rfl
    rw [hkx]
    by_cases hqe : q = n - k - 1
    · rw [hqe, e_fst]
      by_cases hp0 : p = 0
      · rw [hp0, e_snd]
        exact heap_root_max ks t (n - k) hI1 (n - k) (by omega) (le_refl _)
      · rw [e_oth p (by omega) (by omega)]
        exact heap_root_max ks t (n - k) hI1 (p + 1) (by omega) (by omega)
    · rw [e_oth q (by omega) (by omega)]
      by_cases hp0 : p = 0
      · rw [hp0, e_snd]
        exact hI3 (t.getD (n - k - 1) 0) (getD_mem_take (by omega) (by omega)) q
          (by omega) hq2
      · rw [e_oth p (by omega) (by omega)]
        exact hI3 (t.getD p 0) (getD_mem_take (by omega) (by omega)) q
          (by omega) hq2

/-- `aheapsort` sorts its segment ascending by key. -/
theorem heapsortPass_sorted (ks : List ℚ) (seg : List ℕ) :
    List.Pairwise (fun a b => keyOf ks a ≤ keyOf ks b) (heapsortPass ks seg) := by
  rcases Nat.eq_zero_or_pos seg.length with hn0 | hn0
  · rw [show heapsortPass ks seg = seg from by
      rw [List.length_eq_zero.mp hn0]; rfl, List.length_eq_zero.mp hn0]
    exact List.Pairwise.nil
  · simp only [heapsortPass]
    set n := seg.length with hndef
    set T1 := (List.range (n / 2)).foldl
      (fun t k => siftD ks n t (n / 2 - k) (2 * (n / 2 - k)) n) seg with hT1
    have h1 : T1.length = n ∧ ∀ c, 2 ≤ c → c ≤ n → n / 2 - n / 2 < c / 2 →
        key1 ks T1 c ≤ key1 ks T1 (c / 2) := by
      rw [hT1]
      exact foldl_range_invariant _
        (fun k t => t.length = n ∧ ∀ c, 2 ≤ c → c ≤ n → n / 2 - k < c / 2 →
          key1 ks t c ≤ key1 ks t (c / 2))
        (n / 2)
        (by
          intro k t hk hP
          obtain ⟨hlen, hinv⟩ := hP
          have hi0 : 1 ≤ n / 2 - k := by omega
          have hs := siftD_spec ks (n / 2 - k) hi0 n t (n / 2 - k)
            (2 * (n / 2 - k)) n rfl (le_refl _) (by omega) (by omega)
            (fun c hc1 hc2 hc3 hc4 => hinv c hc1 hc2 (by omega))
            (fun hlt => absurd hlt (lt_irrefl _))
          exact ⟨((siftD_perm ks n t _ _ _).length_eq).trans hlen,
            fun c hc1 hc2 hc3 => hs.1 c hc1 hc2 (by omega)⟩)
        seg
        ⟨hndef.symm, fun c hc1 hc2 hc3 => absurd hc3 (by omega)⟩
    have hheap : ∀ c, 2 ≤ c → c ≤ n → key1 ks T1 c ≤ key1 ks T1 (c / 2) :=
      fun c hc1 hc2 => h1.2 c hc1 hc2 (by omega)
    set F := (List.range (n - 1)).foldl
      (fun t k => siftD ks n (lswap t (n - k - 1) 0) 1 2 (n - k - 1)) T1 with hF
    have h2 : F.length = n ∧
        (∀ c, 2 ≤ c → c ≤ n - (n - 1) → key1 ks F c ≤ key1 ks F (c / 2)) ∧
        (∀ p q, n - (n - 1) ≤ p → p ≤ q → q < n →
          entKey ks F p ≤ entKey ks F q) ∧
        (∀ x ∈ F.take (n - (n - 1)), ∀ q, n - (n - 1) ≤ q → q < n →
          keyOf ks x ≤ entKey ks F q) := by
      rw [hF]
      exact foldl_range_invariant _
        (fun k t => t.length = n ∧
          (∀ c, 2 ≤ c → c ≤ n - k → key1 ks t c ≤ key1 ks t (c / 2)) ∧
          (∀ p q, n - k ≤ p → p ≤ q → q < n → entKey ks t p ≤ entKey ks t q) ∧
          (∀ x ∈ t.take (n - k), ∀ q, n - k ≤ q → q < n →
            keyOf ks x ≤ entKey ks t q))
        (n - 1)
        (fun k t hk hP =>
          heap_extract_step ks n k t hk hP.1 hP.2.1 hP.2.2.1 hP.2.2.2)
        T1
        ⟨h1.1, fun c hc1 hc2 => hheap c hc1 (by omega),
          fun p q hp hpq hq => absurd hq (by omega),
          fun x hx q hq1 hq2 => absurd hq2 (by omega)⟩
    have hsorted : ∀ p q, p ≤ q → q < n → entKey ks F p ≤ entKey ks F q := by
      intro p q hpq hq
      rcases Nat.eq_zero_or_pos p with rfl | hp
      · rcases Nat.eq_zero_or_pos q with rfl | hq0
        · exact le_refl _
        · exact h2.2.2.2 (F.getD 0 0) (getD_mem_take (by omega) (by omega)) q
            (by omega) hq
      · exact h2.2.2.1 p q (by omega) hpq hq
    rw [List.pairwise_iff_getElem]
    intro a b ha hb hab
    have hbn : b < n := by
      rw [h2.1] at hb
      exact hb
    have h := hsorted a b (le_of_lt hab) hbn
    unfold entKey at h
    rw [List.getD_eq_getElem F 0 (show a < F.length from ha),
      List.getD_eq_getElem F 0 (show b < F.length from hb)] at h
    exact h

/-- The `aquicksort` machine sorts every segment ascending by key, whichever
path — insertion sort, partition recursion, or the depth-limit heapsort
fallback — it takes. -/
theorem introAux_sorted (ks : List ℚ) :
    ∀ (fuel : ℕ) (seg : List ℕ) (dl : ℤ), seg.length < fuel →
      List.Pairwise (fun a b => keyOf ks a ≤ keyOf ks b)
        (introAux ks fuel seg dl).1
  | 0, seg, dl, h => absurd h (by omega)
  | fuel + 1, seg, dl, h => by
    simp only [introAux]
    by_cases h16 : seg.length ≤ 16
    · rw [if_pos h16]
      exact insertionPass_sorted_key ks seg
    · rw [if_neg h16]
      by_cases hdl : dl < 0
      · rw [if_pos hdl]
        exact heapsortPass_sorted ks seg
      · rw [if_neg hdl]
        have hm : 17 ≤ seg.length := by omega
        obtain ⟨hl1, hl2, hkL, hkR⟩ := partitionSeg_spec ks seg hm
        have glue : ∀ d1 d2 : ℤ,
            List.Pairwise (fun a b => keyOf ks a ≤ keyOf ks b)
              ((introAux ks fuel (partitionSeg ks seg).1 d1).1 ++
                (partitionSeg ks seg).2.1 ::
                  (introAux ks fuel (partitionSeg ks seg).2.2 d2).1) := by
          intro d1 d2
          have hmemL : ∀ x ∈ (introAux ks fuel (partitionSeg ks seg).1 d1).1,
              keyOf ks x ≤ keyOf ks (partitionSeg ks seg).2.1 :=
            fun x hx => hkL x ((introAux_perm ks fuel _ d1).mem_iff.mp hx)
          have hmemR : ∀ y ∈ (introAux ks fuel (partitionSeg ks seg).2.2 d2).1,
              keyOf ks (partitionSeg ks seg).2.1 ≤ keyOf ks y :=
            fun y hy => hkR y ((introAux_perm ks fuel _ d2).mem_iff.mp hy)
          rw [List.pairwise_append]
          refine ⟨introAux_sorted ks fuel _ d1 (by omega), ?_, ?_⟩
          · rw [List.pairwise_cons]
            exact ⟨hmemR, introAux_sorted ks fuel _ d2 (by omega)⟩
          · intro x hx y hy
            rcases List.mem_cons.mp hy with rfl | hy'
            · exact hmemL x hx
            · exact le_trans (hmemL x hx) (hmemR y hy')
        split
        · exact glue _ _
        · exact glue _ _

/-- `np.argsort`'s index output lists the positions in ascending key order,
for arrays of every size. -/
theorem npArgsort_sorted (ks : List ℚ) :
    List.Pairwise (fun a b => keyOf ks a ≤ keyOf ks b) (npArgsort ks) := by
  unfold npArgsort
  exact introAux_sorted ks (ks.length + 1) (List.range ks.length) _
    (by rw [List.length_range]; omega)

/-!
### The rejection engine `_discard_spurious_eigenvalues`

Transcription, line by line:
* tag every eigenvalue with its original array position
  (`zip(eval, arange(len(eval)))`) and drop non-finite entries
  (`arr[np.isfinite(eval)]`): `tagAndFilter`;
* sort each tagged array by the real part of the value column
  (`arr[np.argsort(arr[:, 0].real)]`): `sortPairs`;
* local spacings `sigmas` built exactly as the three numpy assignments
  (`sigmas[0] = ...`, `sigmas[1:-1] = [...]`, `sigmas[-1] = ...`), raising
  `IndexError` when fewer than two entries remain (`eval_low_sorted[1]`, or
  `eval_low_sorted[0]` / the 2-D indexing of an empty array, is out of
  bounds): `sigmasArr`;
* `delta_ordinal[j] = |low[j] - high[j]| / sigmas[j]` — computed for every
  `j` before the `use_ordinal` branch, raising `IndexError` when the sorted
  high-res array is shorter: `deltaOrdinalE`;
* `delta_near[j] = np.nanmin(|low[j] - high| / sigmas[j])`: `deltaNearE`;
* keep the rows whose inverse drift exceeds the threshold
  (`arr[np.where(inverse_drift > drift_threshold)]`) and return the value
  column together with the index column: `discardSpurious`.

The index column is stored as the real part of a complex entry and recovered
with `.real.astype(np.int)`; positions are machine integers below `2 ** 53`,
so the round trip is exact and the tag is modelled as a natural number.
-/

/-- Tag each entry with its original position and drop non-finite entries. -/
def tagAndFilter (l : List CEntry) : List (Cplx × ℕ) :=
  l.enum.filterMap (fun p => p.2.toFin.map (fun z => (z, p.1)))

/-- Number of finite entries of a raw eigenvalue array. -/
def finCount (l : List CEntry) : ℕ := (tagAndFilter l).length

/-- Sort the tagged array by the real part of the value column, with
`np.argsort`'s default quicksort. -/
def sortPairs (ps : List (Cplx × ℕ)) : List (Cplx × ℕ) :=
  gather ps (npArgsort (ps.map (fun p => p.1.1)))

variable (cabs : Cplx → K)

/-- The local spacing array, built by the three numpy assignments of the
source (`np.zeros`, then positions `0`, `1:-1`, `-1`). -/
def sigmasArr (vals : List Cplx) : Except PyErr (List K) :=
  if vals.length < 2 then .error .indexError
  else
    let n := vals.length
    let v := fun j => vals.getD j (0, 0)
    let s0 := List.replicate n (0 : K)
    let s1 := s0.set 0 (cabs (csub (v 0) (v 1)))
    let mid := (List.range' 1 (n - 2)).map (fun j =>
      (1 / 2 : K) * (cabs (csub (v j) (v (j - 1))) + cabs (csub (v (j + 1)) (v j))))
    let s2 := (mid.enumFrom 1).foldl (fun acc p => acc.set p.1 p.2) s1
    .ok (s2.set (n - 1) (cabs (csub (v (n - 2)) (v (n - 1)))))

/-- The ordinal drift list: `|low[j] - high[j]| / sigmas[j]` for every sorted
low-res position `j`, in ascending `j` (a Python list comprehension), raising
`IndexError` at the first `j` with no high-res partner. -/
def deltaOrdinalE (low hi : List Cplx) (sig : List K) : Except PyErr (List (REx K)) :=
  (List.range low.length).mapM (fun j =>
    match hi.get? j with
    | none => .error .indexError
    | some h => .ok (divK (cabs (csub (low.getD j (0, 0)) h)) (sig.getD j 0)))

/-- The nearest drift list: `np.nanmin(|low[j] - high| / sigmas[j])` for every
sorted low-res position `j`. -/
def deltaNearE (low hi : List Cplx) (sig : List K) : Except PyErr (List (REx K)) :=
  (List.range low.length).mapM (fun j =>
    nanminE (hi.map (fun h => divK (cabs (csub (low.getD j (0, 0)) h)) (sig.getD j 0))))

/-- `_discard_spurious_eigenvalues(self)`: returns the accepted low-res
eigenvalues (original complex values) together with their original pre-sort
array indices. -/
def discardSpurious (useOrdinal : Bool) (driftThreshold : K)
    (lowRaw hiRaw : List CEntry) : Except PyErr (List Cplx × List ℕ) := do
  let lowP := sortPairs (tagAndFilter lowRaw)
  let hiP := sortPairs (tagAndFilter hiRaw)
  let lowS := lowP.map Prod.fst
  let hiS := hiP.map Prod.fst
  let sig ← sigmasArr cabs lowS
  let dOrd ← deltaOrdinalE cabs lowS hiS sig
  let dNear ← deltaNearE cabs lowS hiS sig
  let inv := (if useOrdinal then dOrd else dNear).map REx.inv1
  let kept := (lowP.zip inv).filter (fun p => REx.gtc p.2 driftThreshold)
  return (kept.map (fun p => p.1.1), kept.map (fun p => p.1.2))

/-!
### `solve` eigenvalue selection and `growth_rate`

`solve` computes `evalues_low` (and, with rejection enabled, `evalues_high`);
the final eigenvalue selection is modelled with the two solver outputs as
parameters.  With rejection enabled it delegates to the engine; with
rejection disabled the source line 66 executes
`self.evalues = self.evalues_lowres`, and `evalues_lowres` is an attribute
never assigned anywhere in the class (the attribute stored on line 59 is
`evalues_low`), so Python raises `AttributeError` before `evalues` or
`evalues_index` is set.

`growth_rate` wraps `solve` in
`try/except np.linalg.linalg.LinAlgError / except (ArpackNoConvergence,
ArpackError)`.  Both handlers execute
`logger.warning("....format(params))` first — and `params` is an undefined
name (the method's argument is `parameters`), so the handler itself raises
`NameError`, which propagates; the `return np.nan, np.nan, np.nan` line is
unreachable.  On the success path it takes `np.max(grow_func(evalues))`
(raising `ValueError` on an empty array), the first position attaining the
maximum (`np.where(... == gr_rate)[0][0]`), and `freq_func` of the eigenvalue
there.  Exceptions raised by `solve` other than the two caught classes
propagate unchanged.
-/

/-- Outcome of the `self.solve(...)` call inside `growth_rate`: the accepted
eigenvalues on success, one of the two caught solver-failure classes, or any
other propagating exception. -/
inductive SolveOutcome : Type
  | success (evalues : List Cplx)
  | linAlgError
  | arpackNoConvergence
  | arpackError
  | raised (e : PyErr)
  deriving DecidableEq, Repr

/-- `growth_rate(self, ...)` given the outcome of its `solve` call and the
`grow_func`/`freq_func` selectors. -/
def growthRate (grow freq : Cplx → ℚ) : SolveOutcome → Except PyErr (REx ℚ × REx ℚ × REx ℚ)
  | .success evs =>
    match evs.map grow with
    | [] => .error .valueError
    | x :: xs =>
      let rate := xs.foldl max x
      let idx := (evs.map grow).findIdx (fun y => decide (y = rate))
      .ok (.fin rate, .fin (idx : ℚ), .fin (freq (evs.getD idx (0, 0))))
  | .linAlgError => .error .nameError
  | .arpackNoConvergence => .error .nameError
  | .arpackError => .error .nameError
  | .raised e => .error e

/-- The default `grow_func`, `lambda x: x.real`. -/
def growDefault (z : Cplx) : ℚ := z.1

/-- The default `freq_func`, `lambda x: x.imag`. -/
def freqDefault (z : Cplx) : ℚ := z.2

/-- The eigenvalue selection at the end of `solve(self, ...)`, given the two
raw solver outputs: with rejection, delegate to the engine; without it, read
the never-assigned attribute `evalues_lowres` (an `AttributeError`). -/
def solveEigenvalues (reject useOrdinal : Bool) (driftThreshold : K)
    (lowRaw hiRaw : List CEntry) : Except PyErr (List Cplx × List ℕ) :=
  if reject then discardSpurious cabs useOrdinal driftThreshold lowRaw hiRaw
  else .error .attributeError

/-!
### `_pseudo`: the pseudospectrum grid fill

`_pseudo(self, L, zgrid, norm=-2)` allocates
`R = np.zeros((len(xx), len(yy)))` and, with the outer loop over the
imaginary points `yy` and the inner loop over the real points `xx`, stores
`R[j, i] = np.linalg.norm(z*np.eye(matsize) - L, ord=-2)` for `z = x + 1j*y`.

`np.linalg.norm` with matrix `ord=2` is the largest singular value and with
`ord=-2` the smallest singular value, characterized variationally as the
supremum resp. infimum of `‖M x‖` over the Euclidean unit sphere (`npMatNorm`
below; other `ord` values are never used by this repository and are left at a
junk value `0`).  This is the one part of the code with no computable exact
counterpart (an SVD), so these definitions are noncomputable.

Note the allocation: `R` has `len(xx)` rows and `len(yy)` columns, but is
written at `[row = y-index, col = x-index]`; `pyWrite2D` performs the
bounds-checked write, raising `IndexError` exactly when numpy would.
-/

/-- The Euclidean norm of a complex vector. -/
noncomputable def vnorm {n : ℕ} (x : Fin n → ℂ) : ℝ :=
  Real.sqrt (∑ i, Complex.normSq (x i))

/-- The values `‖M x‖` attains on the Euclidean unit sphere. -/
def opImage {n : ℕ} (M : Matrix (Fin n) (Fin n) ℂ) : Set ℝ :=
  {r | ∃ x : Fin n → ℂ, vnorm x = 1 ∧ r = vnorm (M.mulVec x)}

/-- `np.linalg.norm(M, ord)` for the two matrix orders the code can pass:
`ord = 2` is the largest and `ord = -2` the smallest singular value. -/
noncomputable def npMatNorm {n : ℕ} (ord : ℤ) (M : Matrix (Fin n) (Fin n) ℂ) : ℝ :=
  if ord = 2 then sSup (opImage M) else if ord = -2 then sInf (opImage M) else 0

/-- A bounds-checked numpy element write `R[j, i] = v`. -/
def pyWrite2D (R : List (List ℝ)) (j i : ℕ) (v : ℝ) : Except PyErr (List (List ℝ)) :=
  if j < R.length then
    if i < (R.getD j []).length then .ok (R.set j ((R.getD j []).set i v))
    else .error .indexError
  else .error .indexError

/-- The complex grid point `z = x + 1j*y`. -/
noncomputable def zPt (x y : ℝ) : ℂ := (x : ℂ) + Complex.I * (y : ℂ)

/-- `_pseudo(L, (xx, yy))`: allocate `np.zeros((len(xx), len(yy)))`, then fill
`R[j, i] = np.linalg.norm(z*np.eye(n) - L, ord=-2)`, outer loop over `yy`,
inner loop over `xx`. -/
noncomputable def pseudoGrid {n : ℕ} (L : Matrix (Fin n) (Fin n) ℂ)
    (xx yy : List ℝ) : Except PyErr (List (List ℝ)) :=
  let R0 := List.replicate xx.length (List.replicate yy.length (0 : ℝ))
  yy.enum.foldlM (fun R jy =>
    xx.enum.foldlM (fun R ix =>
      pyWrite2D R jy.1 ix.1
        (npMatNorm (-2) (zPt ix.2 jy.2 • (1 : Matrix (Fin n) (Fin n) ℂ) - L))) R) R0

/-- Modelled from the spec: the same grid fill, but storing "the 2-norm of
the matrix `(z·I - Gmu)`" — `np.linalg.norm` with `ord = 2` — as the claim
asserts the code does. -/
noncomputable def pseudoGridSpec2Norm {n : ℕ} (L : Matrix (Fin n) (Fin n) ℂ)
    (xx yy : List ℝ) : Except PyErr (List (List ℝ)) :=
  let R0 := List.replicate xx.length (List.replicate yy.length (0 : ℝ))
  yy.enum.foldlM (fun R jy =>
    xx.enum.foldlM (fun R ix =>
      pyWrite2D R jy.1 ix.1
        (npMatNorm 2 (zPt ix.2 jy.2 • (1 : Matrix (Fin n) (Fin n) ℂ) - L))) R) R0

/-! ### Supporting lemmas about the engine's building blocks -/

theorem gather_eq_map {α : Type} (l : List α) (d : α) :
    ∀ idxs : List ℕ, (∀ i ∈ idxs, i < l.length) →
      gather l idxs = idxs.map (fun i => l.getD i d)
  | [], _ => rfl
  | i :: idxs, h => by
    have hi : i < l.length := h i (List.mem_cons_self i idxs)
    simp only [gather, List.filterMap_cons, List.map_cons]
    rw [List.get?_eq_getElem? l i, List.getElem?_eq_getElem hi]
    simp only [Option.some.injEq]
    have := gather_eq_map l d idxs (fun x hx => h x (List.mem_cons_of_mem i hx))
    simp only [gather] at this
    rw [this, List.getD_eq_getElem l d hi]

theorem map_getD_range {α : Type} (l : List α) (d : α) :
    (List.range l.length).map (fun i => l.getD i d) = l := by
  apply List.ext_getElem
  · simp
  · intro k h1 h2
    simp only [List.getElem_map, List.getElem_range]
    rw [List.getD_eq_getElem l d h2]

theorem sortPairs_eq_map (ps : List (Cplx × ℕ)) :
    sortPairs ps = (npArgsort (ps.map (fun p => p.1.1))).map
      (fun i => ps.getD i ((0, 0), 0)) := by
  unfold sortPairs
  refine gather_eq_map ps ((0, 0), 0) _ (fun i hi => ?_)
  have := npArgsort_mem_lt _ hi
  simpa using this

theorem sortPairs_perm (ps : List (Cplx × ℕ)) : List.Perm (sortPairs ps) ps := by
  rw [sortPairs_eq_map]
  have hp : List.Perm (npArgsort (ps.map (fun p => p.1.1)))
      (List.range ps.length) := by
    simpa using npArgsort_perm (ps.map (fun p => p.1.1))
  have := hp.map (fun i => ps.getD i ((0, 0), 0))
  rw [map_getD_range ps ((0, 0), 0)] at this
  exact this

theorem sortPairs_length (ps : List (Cplx × ℕ)) :
    (sortPairs ps).length = ps.length :=
  (sortPairs_perm ps).length_eq

/-- Entries of the tagged-and-filtered list really are the finite entries of
the raw array at their tagged positions. -/
theorem tagAndFilter_mem {l : List CEntry} {z : Cplx} {i : ℕ}
    (h : (z, i) ∈ tagAndFilter l) : (l.get? i).bind CEntry.toFin = some z := by
  unfold tagAndFilter at h
  rcases List.mem_filterMap.mp h with ⟨⟨j, ce⟩, hmem, hmap⟩
  rcases Option.map_eq_some'.mp hmap with ⟨z', hz', heq⟩
  cases heq
  have : l.get? j = some ce := by
    have := List.mk_mem_enum_iff_getElem?.mp hmem
    rwa [List.get?_eq_getElem?]
  rw [this]
  simpa using hz'

theorem mapM_eq_map {β : Type} (f : ℕ → Except PyErr β) (g : ℕ → β) :
    ∀ l : List ℕ, (∀ j ∈ l, f j = .ok (g j)) → l.mapM f = .ok (l.map g)
  | [], _ => rfl
  | j :: l, h => by
    rw [List.mapM_cons, h j (List.mem_cons_self j l),
      mapM_eq_map f g l (fun x hx => h x (List.mem_cons_of_mem j hx))]
    rfl

theorem mapM_error {β : Type} (f : ℕ → Except PyErr β) (e : PyErr) (j₀ : ℕ)
    (hj : f j₀ = .error e) :
    ∀ l₁ : List ℕ, (∀ j ∈ l₁, ∃ b, f j = .ok b) → ∀ l₂ : List ℕ,
      (l₁ ++ j₀ :: l₂).mapM f = (.error e : Except PyErr (List β))
  | [], _, l₂ => by
    rw [List.nil_append, List.mapM_cons, hj]
    rfl
  | j :: l₁, h, l₂ => by
    rcases h j (List.mem_cons_self j l₁) with ⟨b, hb⟩
    rw [List.cons_append, List.mapM_cons, hb]
    have := mapM_error f e j₀ hj l₁ (fun x hx => h x (List.mem_cons_of_mem j hx)) l₂
    rw [show ((do
      let x ← Except.ok b
      let xs ← (l₁ ++ j₀ :: l₂).mapM f
      pure (x :: xs) : Except PyErr (List β))) = (do
      let xs ← (l₁ ++ j₀ :: l₂).mapM f
      pure (b :: xs) : Except PyErr (List β)) from rfl, this]
    rfl

/-- `range n` split at a position `j₀ < n`. -/
theorem range_split (n j₀ : ℕ) (h : j₀ < n) :
    ∃ l₂ : List ℕ, List.range n = List.range j₀ ++ j₀ :: l₂ := by
  refine ⟨(List.range n).drop (j₀ + 1), ?_⟩
  have hlen : j₀ < (List.range n).length := by simpa using h
  conv_lhs => rw [← List.take_append_drop j₀ (List.range n)]
  congr 1
  · rw [List.take_range]
    congr 1
    omega
  · rw [List.drop_eq_getElem_cons hlen]
    congr 1
    simp

/-! ### The slice assignment `sigmas[1:-1] = [...]` -/

theorem enumFrom_foldl_set {α : Type} (d : α) :
    ∀ (xs : List α) (k : ℕ) (base : List α),
      ((xs.enumFrom k).foldl (fun acc p => acc.set p.1 p.2) base).length = base.length ∧
      (∀ q, (q < k ∨ k + xs.length ≤ q) →
        ((xs.enumFrom k).foldl (fun acc p => acc.set p.1 p.2) base).getD q d =
          base.getD q d) ∧
      (∀ q, k ≤ q → q < k + xs.length → q < base.length →
        ((xs.enumFrom k).foldl (fun acc p => acc.set p.1 p.2) base).getD q d =
          xs.getD (q - k) d)
  | [], k, base => by
    refine ⟨rfl, fun q _ => rfl, fun q h1 h2 _ => ?_⟩
    simp only [List.length_nil] at h2
    omega
  | x :: xs, k, base => by
    simp only [List.enumFrom_cons, List.foldl_cons]
    obtain ⟨ih1, ih2, ih3⟩ := enumFrom_foldl_set d xs (k + 1) (base.set k x)
    refine ⟨by rw [ih1, List.length_set], ?_, ?_⟩
    · intro q hq
      simp only [List.length_cons] at hq
      have hne : k ≠ q := by omega
      rw [ih2 q (by omega), getD_eq_getElem?_getD, getD_eq_getElem?_getD,
        List.getElem?_set_ne hne]
    · intro q hq1 hq2 hq3
      simp only [List.length_cons] at hq2
      by_cases heq : q = k
      · subst heq
        rw [ih2 q (Or.inl (by omega)), getD_eq_getElem?_getD,
          List.getElem?_set_self hq3, Option.getD_some]
        simp
      · rw [ih3 q (by omega) (by omega) (by simpa using hq3)]
        have hqk : q - k = (q - (k + 1)) + 1 := by omega
        rw [hqk]
        rfl

theorem sigmasArr_lt_two {K : Type} [LinearOrderedField K] (cabs : Cplx → K)
    (vals : List Cplx) (h : vals.length < 2) :
    sigmasArr cabs vals = .error .indexError := by
  unfold sigmasArr
  rw [if_pos h]

/-- Full characterization of the spacing array for at least two sorted finite
values: it exists, has one entry per value, and its entries are exactly the
endpoint distances and interior half-sums of the source's three
assignments. -/
theorem sigmasArr_ok {K : Type} [LinearOrderedField K] (cabs : Cplx → K)
    (vals : List Cplx) (h : 2 ≤ vals.length) :
    ∃ s : List K, sigmasArr cabs vals = .ok s ∧ s.length = vals.length ∧
      s.getD 0 0 = cabs (csub (vals.getD 0 (0, 0)) (vals.getD 1 (0, 0))) ∧
      s.getD (vals.length - 1) 0 =
        cabs (csub (vals.getD (vals.length - 2) (0, 0))
          (vals.getD (vals.length - 1) (0, 0))) ∧
      ∀ j, 0 < j → j < vals.length - 1 →
        s.getD j 0 = (1 / 2 : K) *
          (cabs (csub (vals.getD j (0, 0)) (vals.getD (j - 1) (0, 0))) +
            cabs (csub (vals.getD (j + 1) (0, 0)) (vals.getD j (0, 0)))) := by
  unfold sigmasArr
  rw [if_neg (by omega)]
  set n := vals.length with hn
  set v := fun j => vals.getD j (0, 0) with hv
  set mid := (List.range' 1 (n - 2)).map (fun j =>
    (1 / 2 : K) * (cabs (csub (v j) (v (j - 1))) + cabs (csub (v (j + 1)) (v j)))) with hmid
  set s1 := (List.replicate n (0 : K)).set 0 (cabs (csub (v 0) (v 1))) with hs1
  obtain ⟨f1, f2, f3⟩ := enumFrom_foldl_set (0 : K) mid 1 s1
  set s2 := (mid.enumFrom 1).foldl (fun acc p => acc.set p.1 p.2) s1 with hs2
  have hs1len : s1.length = n := by
    rw [hs1, List.length_set, List.length_replicate]
  have hmidlen : mid.length = n - 2 := by
    rw [hmid, List.length_map, List.length_range']
  have hs2len : s2.length = n := by rw [f1, hs1len]
  refine ⟨s2.set (n - 1) (cabs (csub (v (n - 2)) (v (n - 1)))), rfl, ?_, ?_, ?_, ?_⟩
  · rw [List.length_set, hs2len]
  · -- position 0: untouched by the final set and by the slice, set by the first
    rw [getD_eq_getElem?_getD, List.getElem?_set_ne (show n - 1 ≠ 0 by omega),
      ← getD_eq_getElem?_getD, f2 0 (Or.inl one_pos), hs1, getD_eq_getElem?_getD,
      List.getElem?_set_self (show (0 : ℕ) < (List.replicate n (0 : K)).length by
        simp only [List.length_replicate]; omega), Option.getD_some]
  · -- position n - 1: the final set
    rw [getD_eq_getElem?_getD,
      List.getElem?_set_self (show n - 1 < s2.length by rw [hs2len]; omega),
      Option.getD_some]
  · -- interior positions: the slice assignment
    intro j hj1 hj2
    rw [getD_eq_getElem?_getD, List.getElem?_set_ne (show n - 1 ≠ j by omega),
      ← getD_eq_getElem?_getD,
      f3 j (by omega) (by rw [hmidlen]; omega) (by rw [hs1len]; omega), hmid,
      getD_eq_getElem?_getD, List.getElem?_map,
      List.getElem?_range' 1 1 (show j - 1 < n - 2 by omega),
      Option.map_some', Option.getD_some]
    have hj : 1 + 1 * (j - 1) = j := by omega
    rw [hj]

/-! ### Characterizing each stage of the engine -/

theorem except_bind_ok {α β : Type} (a : α) (f : α → Except PyErr β) :
    ((Except.ok a : Except PyErr α) >>= f) = f a := rfl

theorem except_bind_error {α β : Type} (e : PyErr) (f : α → Except PyErr β) :
    ((Except.error e : Except PyErr α) >>= f) = .error e := rfl

theorem except_map_error {α β : Type} (f : α → β) (e : PyErr) :
    Except.map f (.error e : Except PyErr α) = .error e := rfl

theorem except_map_ok {α β : Type} (f : α → β) (a : α) :
    Except.map f (.ok a : Except PyErr α) = .ok (f a) := rfl

theorem get?_eq_some_getD {α : Type} (l : List α) (d : α) (j : ℕ) (h : j < l.length) :
    l.get? j = some (l.getD j d) := by
  rw [List.get?_eq_getElem?, List.getElem?_eq_getElem h, List.getD_eq_getElem l d h]


theorem deltaOrdinalE_ok (cabs : Cplx → K) (low hi : List Cplx) (sig : List K)
    (hlen : low.length ≤ hi.length) :
    deltaOrdinalE cabs low hi sig = .ok ((List.range low.length).map (fun j =>
      divK (cabs (csub (low.getD j (0, 0)) (hi.getD j (0, 0)))) (sig.getD j 0))) := by
  unfold deltaOrdinalE
  refine mapM_eq_map _ _ _ (fun j hj => ?_)
  have hjlt : j < hi.length := lt_of_lt_of_le (List.mem_range.mp hj) hlen
  rw [get?_eq_some_getD hi (0, 0) j hjlt]

theorem deltaOrdinalE_error (cabs : Cplx → K) (low hi : List Cplx) (sig : List K)
    (hlen : hi.length < low.length) :
    deltaOrdinalE cabs low hi sig = .error .indexError := by
  unfold deltaOrdinalE
  obtain ⟨l₂, hsplit⟩ := range_split low.length hi.length hlen
  rw [hsplit]
  refine mapM_error _ _ hi.length ?_ _ (fun j hj => ?_) _
  · rw [List.get?_eq_getElem?, List.getElem?_eq_none (le_refl _)]
  · have hjlt : j < hi.length := List.mem_range.mp hj
    rw [get?_eq_some_getD hi (0, 0) j hjlt]
    exact ⟨_, rfl⟩

theorem deltaNearE_ok (cabs : Cplx → K) (low hi : List Cplx) (sig : List K)
    (hne : hi ≠ []) :
    deltaNearE cabs low hi sig = .ok ((List.range low.length).map (fun j =>
      nanminV (hi.map (fun h =>
        divK (cabs (csub (low.getD j (0, 0)) h)) (sig.getD j 0))))) := by
  unfold deltaNearE
  refine mapM_eq_map _ _ _ (fun j _ => ?_)
  unfold nanminE
  rw [if_neg]
  simp [hne]

/-- The sorted finite low-res values the engine works on. -/
def sortedLowVals (lowRaw : List CEntry) : List Cplx :=
  (sortPairs (tagAndFilter lowRaw)).map Prod.fst

/-- The sorted finite high-res values the engine works on. -/
def sortedHighVals (hiRaw : List CEntry) : List Cplx :=
  (sortPairs (tagAndFilter hiRaw)).map Prod.fst

theorem sortedLowVals_length (lowRaw : List CEntry) :
    (sortedLowVals lowRaw).length = finCount lowRaw := by
  rw [sortedLowVals, List.length_map, sortPairs_length]
  rfl

theorem sortedHighVals_length (hiRaw : List CEntry) :
    (sortedHighVals hiRaw).length = finCount hiRaw := by
  rw [sortedHighVals, List.length_map, sortPairs_length]
  rfl

/-- The inverse drift ratios of the engine: `1/delta_ordinal` or
`1/delta_near` per the `use_ordinal` flag, computed from the same sorted
arrays and spacings as `discardSpurious` (the ordinal deltas are computed,
and can raise, in either mode). -/
def inverseDriftsOf (cabs : Cplx → K) (useOrdinal : Bool)
    (lowRaw hiRaw : List CEntry) : Except PyErr (List (REx K)) := do
  let sig ← sigmasArr cabs (sortedLowVals lowRaw)
  let dOrd ← deltaOrdinalE cabs (sortedLowVals lowRaw) (sortedHighVals hiRaw) sig
  let dNear ← deltaNearE cabs (sortedLowVals lowRaw) (sortedHighVals hiRaw) sig
  return (if useOrdinal then dOrd else dNear).map REx.inv1

/-- The engine is the inverse-drift computation followed by the threshold
filter `eval_low_and_indx[np.where(inverse_drift > drift_threshold)]` and the
final column split. -/
theorem discardSpurious_char (cabs : Cplx → K) (uo : Bool) (thr : K)
    (lowRaw hiRaw : List CEntry) :
    discardSpurious cabs uo thr lowRaw hiRaw =
      Except.map (fun inv =>
        ((((sortPairs (tagAndFilter lowRaw)).zip inv).filter
            (fun p => REx.gtc p.2 thr)).map (fun p => p.1.1),
         (((sortPairs (tagAndFilter lowRaw)).zip inv).filter
            (fun p => REx.gtc p.2 thr)).map (fun p => p.1.2)))
        (inverseDriftsOf cabs uo lowRaw hiRaw) := by
  unfold discardSpurious inverseDriftsOf sortedLowVals sortedHighVals
  dsimp only
  cases h1 : sigmasArr cabs ((sortPairs (tagAndFilter lowRaw)).map Prod.fst) with
  | error e => rfl
  | ok s =>
    cases h2 : deltaOrdinalE cabs ((sortPairs (tagAndFilter lowRaw)).map Prod.fst)
        ((sortPairs (tagAndFilter hiRaw)).map Prod.fst) s with
    | error e =>
      show (Except.ok s >>= _ : Except PyErr _) = Except.map _ (Except.ok s >>= _)
      rw [except_bind_ok, except_bind_ok, h2]
      rfl
    | ok d1 =>
      show (Except.ok s >>= _ : Except PyErr _) = Except.map _ (Except.ok s >>= _)
      rw [except_bind_ok, except_bind_ok, h2]
      cases h3 : deltaNearE cabs ((sortPairs (tagAndFilter lowRaw)).map Prod.fst)
          ((sortPairs (tagAndFilter hiRaw)).map Prod.fst) s with
      | error e => rfl
      | ok d2 => rfl

theorem inverseDriftsOf_err_low (cabs : Cplx → K) (uo : Bool)
    (lowRaw hiRaw : List CEntry) (h : finCount lowRaw < 2) :
    inverseDriftsOf cabs uo lowRaw hiRaw = .error .indexError := by
  unfold inverseDriftsOf
  rw [show sigmasArr cabs (sortedLowVals lowRaw) = .error .indexError from
    sigmasArr_lt_two cabs _ (by rw [sortedLowVals_length]; omega)]
  rfl

theorem inverseDriftsOf_err_high (cabs : Cplx → K) (uo : Bool)
    (lowRaw hiRaw : List CEntry) (h2 : 2 ≤ finCount lowRaw)
    (h : finCount hiRaw < finCount lowRaw) :
    inverseDriftsOf cabs uo lowRaw hiRaw = .error .indexError := by
  obtain ⟨sig, hsig, _, _, _, _⟩ := sigmasArr_ok cabs (sortedLowVals lowRaw)
    (by rw [sortedLowVals_length]; omega)
  unfold inverseDriftsOf
  rw [hsig, except_bind_ok,
    deltaOrdinalE_error cabs _ _ sig
      (by rw [sortedLowVals_length, sortedHighVals_length]; omega)]
  rfl

theorem inverseDriftsOf_ok_char (cabs : Cplx → K) (uo : Bool)
    (lowRaw hiRaw : List CEntry) (h2 : 2 ≤ finCount lowRaw)
    (hge : finCount lowRaw ≤ finCount hiRaw) :
    ∃ sig : List K, sigmasArr cabs (sortedLowVals lowRaw) = .ok sig ∧
      inverseDriftsOf cabs uo lowRaw hiRaw = .ok
        ((if uo then
            (List.range (sortedLowVals lowRaw).length).map (fun j =>
              divK (cabs (csub ((sortedLowVals lowRaw).getD j (0, 0))
                ((sortedHighVals hiRaw).getD j (0, 0)))) (sig.getD j 0))
          else
            (List.range (sortedLowVals lowRaw).length).map (fun j =>
              nanminV ((sortedHighVals hiRaw).map (fun h =>
                divK (cabs (csub ((sortedLowVals lowRaw).getD j (0, 0)) h))
                  (sig.getD j 0))))).map REx.inv1) := by
  obtain ⟨sig, hsig, _, _, _, _⟩ := sigmasArr_ok cabs (sortedLowVals lowRaw)
    (by rw [sortedLowVals_length]; omega)
  refine ⟨sig, hsig, ?_⟩
  unfold inverseDriftsOf
  rw [hsig, except_bind_ok,
    deltaOrdinalE_ok cabs _ _ sig
      (by rw [sortedLowVals_length, sortedHighVals_length]; omega),
    except_bind_ok,
    deltaNearE_ok cabs _ _ sig
      (by
        intro e
        have := sortedHighVals_length hiRaw
        rw [e] at this
        simp at this
        omega),
    except_bind_ok]
  cases uo <;> rfl

/-- C10: the engine computes the ordinal delta for every low-res index
regardless of the `use_ordinal` flag — the statement below does not depend on
`uo` — so it completes (returns a value rather than raising) exactly when at
least two low-res eigenvalues are finite and the finite high-res eigenvalues
are at least as numerous as the finite low-res ones.  Under that precondition
the ordinal lookup into the sorted high-res array is always in bounds, and
the nearest delta needs nothing further (its `np.nanmin` argument is then
nonempty); without it, the engine raises an `IndexError`
(`inverseDriftsOf_err_low` / `inverseDriftsOf_err_high`). -/
theorem claim_C10_completion_iff (uo : Bool) (thr : K) (lowRaw hiRaw : List CEntry) :
    (∃ r, discardSpurious cabs uo thr lowRaw hiRaw = .ok r) ↔
      (2 ≤ finCount lowRaw ∧ finCount lowRaw ≤ finCount hiRaw) := by
  rw [discardSpurious_char]
  constructor
  · rintro ⟨r, hr⟩
    by_contra hc
    by_cases hA : 2 ≤ finCount lowRaw
    · have hB : ¬ (finCount lowRaw ≤ finCount hiRaw) := fun hB => hc ⟨hA, hB⟩
      rw [inverseDriftsOf_err_high cabs uo _ _ hA (by omega), except_map_error] at hr
      exact Except.noConfusion hr
    · rw [inverseDriftsOf_err_low cabs uo _ _ (by omega), except_map_error] at hr
      exact Except.noConfusion hr
  · rintro ⟨h2, hge⟩
    obtain ⟨sig, _, hinv⟩ := inverseDriftsOf_ok_char cabs uo lowRaw hiRaw h2 hge
    rw [hinv]
    exact ⟨_, rfl⟩

theorem map_getD_lt {α β : Type} (f : α → β) (l : List α) (d : β) (d' : α)
    (k : ℕ) (h : k < l.length) : (l.map f).getD k d = f (l.getD k d') := by
  rw [List.getD_eq_getElem _ d (by simpa using h), List.getD_eq_getElem _ d' h,
    List.getElem_map]

theorem getD_mem {α : Type} (l : List α) (d : α) (k : ℕ) (h : k < l.length) :
    l.getD k d ∈ l := by
  rw [List.getD_eq_getElem _ d h]
  exact List.getElem_mem h

/-- C6 support: the engine's sorted tagged array is ascending in the real
part of the value column, for arrays of every size. -/
theorem sortPairs_sorted (ps : List (Cplx × ℕ)) :
    List.Pairwise (fun p q => p.1.1 ≤ q.1.1) (sortPairs ps) := by
  unfold sortPairs
  rw [gather_eq_map ps ((0, 0), 0) _ (fun i hi => by
    have hlt := npArgsort_mem_lt _ hi
    rwa [List.length_map] at hlt)]
  rw [List.pairwise_map]
  refine List.Pairwise.imp_of_mem ?_ (npArgsort_sorted (ps.map (fun p => p.1.1)))
  intro a b ha hb hab
  have ha' : a < ps.length := by
    have hlt := npArgsort_mem_lt _ ha
    rwa [List.length_map] at hlt
  have hb' : b < ps.length := by
    have hlt := npArgsort_mem_lt _ hb
    rwa [List.length_map] at hlt
  have ea : keyOf (ps.map (fun p => p.1.1)) a = (ps.getD a ((0, 0), 0)).1.1 := by
    unfold keyOf
    exact map_getD_lt _ ps 0 ((0, 0), 0) a ha'
  have eb : keyOf (ps.map (fun p => p.1.1)) b = (ps.getD b ((0, 0), 0)).1.1 := by
    unfold keyOf
    exact map_getD_lt _ ps 0 ((0, 0), 0) b hb'
  rw [ea, eb] at hab
  exact hab

/-- C1 (amended with the precondition that the finite high-res eigenvalues
are at least as numerous as the finite low-res ones, which the counterexample
shows is necessary): the engine succeeds, its accepted rows are exactly the
sorted finite low-res (value, original-index) pairs whose inverse drift
ratio (`1/delta_ordinal` if `use_ordinal` else `1/delta_near`, the `.ok`
value of `inverseDriftsOf`) is strictly above the threshold, the values
returned are the original pre-sort complex values, and indexing the raw
low-res array at each returned original index yields exactly that finite
value. -/
theorem claim_C1_amended (uo : Bool) (thr : K) (lowRaw hiRaw : List CEntry)
    (h2 : 2 ≤ finCount lowRaw) (hge : finCount lowRaw ≤ finCount hiRaw) :
    ∃ (inv : List (REx K)) (vals : List Cplx) (idxs : List ℕ),
      inverseDriftsOf cabs uo lowRaw hiRaw = .ok inv ∧
      inv.length = finCount lowRaw ∧
      List.Perm (sortPairs (tagAndFilter lowRaw)) (tagAndFilter lowRaw) ∧
      discardSpurious cabs uo thr lowRaw hiRaw = .ok (vals, idxs) ∧
      vals = (((sortPairs (tagAndFilter lowRaw)).zip inv).filter
        (fun p => REx.gtc p.2 thr)).map (fun p => p.1.1) ∧
      idxs = (((sortPairs (tagAndFilter lowRaw)).zip inv).filter
        (fun p => REx.gtc p.2 thr)).map (fun p => p.1.2) ∧
      ∀ k, k < vals.length →
        (lowRaw.get? (idxs.getD k 0)).bind CEntry.toFin = some (vals.getD k (0, 0)) := by
  obtain ⟨sig, hsig, hinv⟩ := inverseDriftsOf_ok_char cabs uo lowRaw hiRaw h2 hge
  refine ⟨_, _, _, hinv, ?_, sortPairs_perm _, ?_, rfl, rfl, ?_⟩
  · cases uo <;>
      simp only [Bool.false_eq_true, if_true, if_false, List.length_map,
        List.length_range, sortedLowVals_length]
  · rw [discardSpurious_char, hinv, except_map_ok]
  · intro k hk
    set kept := (((sortPairs (tagAndFilter lowRaw)).zip _).filter
      (fun p => REx.gtc p.2 thr)) with hkept
    rw [List.length_map] at hk
    rw [map_getD_lt _ _ _ (((0, 0), 0), REx.nan) k hk,
      map_getD_lt _ _ _ (((0, 0), 0), REx.nan) k hk]
    have hmem : kept.getD k (((0, 0), 0), REx.nan) ∈ kept := getD_mem _ _ k hk
    have hzip : kept.getD k (((0, 0), 0), REx.nan) ∈
        (sortPairs (tagAndFilter lowRaw)).zip _ := List.mem_of_mem_filter hmem
    have hfst : (kept.getD k (((0, 0), 0), REx.nan)).1 ∈
        sortPairs (tagAndFilter lowRaw) := (List.of_mem_zip hzip).1
    have htf : (kept.getD k (((0, 0), 0), REx.nan)).1 ∈ tagAndFilter lowRaw :=
      (sortPairs_perm _).mem_iff.mp hfst
    exact tagAndFilter_mem htf

/-!
### Claim theorems: C1 counterexample, C3, C4, C5, C8
-/

/-- C1, counterexample: the claim quantifies over "every pair of eigenvalue
arrays with at least 2 finite low-res entries" and asserts the engine then
returns the accepted set.  With the true Euclidean modulus (`K = ℝ`,
`cabs = euclidAbs`), the low-res array `[0, 1]` has two finite entries, yet
with a high-res array containing no finite entry the engine raises an
`IndexError` (`eval_hi_sorted[0]` in the ordinal-delta comprehension) and
returns nothing. -/
theorem claim_C1_counterexample :
    discardSpurious euclidAbs false ((10 : ℝ) ^ 6)
      [CEntry.ofFin (0, 0), CEntry.ofFin (1, 0)] [⟨QExt.nan, QExt.nan⟩] =
      .error .indexError := rfl

/-- C3: with fewer than 2 finite low-res eigenvalues — here every low-res
entry is `NaN`, the spec's Scenario B — the engine raises an out-of-bounds
`IndexError` (the claim and spec prescribe a
`ValueError("not enough eigenvalues to compute spacing")`, which the source
never raises).  The statement holds for every magnitude field and modulus
function, in particular the Euclidean one. -/
theorem claim_C3_all_nan_raises_index_error (K : Type) [LinearOrderedField K]
    (cabs : Cplx → K) (uo : Bool) (thr : K) :
    discardSpurious cabs uo thr [⟨QExt.nan, QExt.nan⟩, ⟨QExt.nan, QExt.nan⟩]
      [CEntry.ofFin (1, 0), CEntry.ofFin (2, 0)] = .error .indexError := rfl

/-- C4: when the solve raises one of the designated failure conditions
(`np.linalg.linalg.LinAlgError`, `ArpackNoConvergence`, `ArpackError`), the
matching except handler runs
`logger.warning("...".format(params))` — and `params` is an undefined name
(the method's argument is `parameters`) — so `growth_rate` propagates a
`NameError` instead of returning `(NaN, NaN, NaN)`. -/
theorem claim_C4_solver_failure_propagates_name_error :
    growthRate growDefault freqDefault .linAlgError = .error .nameError ∧
    growthRate growDefault freqDefault .arpackNoConvergence = .error .nameError ∧
    growthRate growDefault freqDefault .arpackError = .error .nameError :=
  ⟨rfl, rfl, rfl⟩

/-- C5: when the solve succeeds but every eigenvalue was rejected,
`np.max` of the empty accepted array raises `ValueError`, which is not among
the caught exception classes, so `growth_rate` propagates it instead of
returning `(NaN, NaN, NaN)`. -/
theorem claim_C5_empty_accepted_set_propagates_value_error :
    growthRate growDefault freqDefault (.success []) = .error .valueError := rfl

/-- C8: with rejection disabled, `solve` executes
`self.evalues = self.evalues_lowres` (line 66) and `evalues_lowres` is never
assigned anywhere in the class (line 59 stores `evalues_low`), so every such
call raises `AttributeError`; the accepted set is never the full low-res
array and `evalues_index` is never assigned. -/
theorem claim_C8_reject_disabled_attribute_error (K : Type)
    [LinearOrderedField K] (cabs : Cplx → K) (uo : Bool) (thr : K)
    (lowRaw hiRaw : List CEntry) :
    solveEigenvalues cabs false uo thr lowRaw hiRaw = .error .attributeError := rfl

/-- Concrete low-res array for the C1 witness: two finite entries (values `5`
and `3` at raw positions `0` and `2`) and one `NaN`. -/
def c1Low : List CEntry :=
  [CEntry.ofFin (5, 0), ⟨QExt.nan, QExt.nan⟩, CEntry.ofFin (3, 0)]

/-- Concrete high-res array for the C1 witness: three finite entries. -/
def c1High : List CEntry :=
  [CEntry.ofFin (3, 0), CEntry.ofFin (5, 0), CEntry.ofFin (7, 0)]

theorem claim_C1_amended_witness :
    2 ≤ finCount c1Low ∧ finCount c1Low ≤ finCount c1High ∧
    (∃ (inv : List (REx ℚ)) (vals : List Cplx) (idxs : List ℕ),
      inverseDriftsOf l1abs false c1Low c1High = .ok inv ∧
      inv.length = finCount c1Low ∧
      List.Perm (sortPairs (tagAndFilter c1Low)) (tagAndFilter c1Low) ∧
      discardSpurious l1abs false ((10 : ℚ) ^ 6) c1Low c1High = .ok (vals, idxs) ∧
      vals = (((sortPairs (tagAndFilter c1Low)).zip inv).filter
        (fun p => REx.gtc p.2 ((10 : ℚ) ^ 6))).map (fun p => p.1.1) ∧
      idxs = (((sortPairs (tagAndFilter c1Low)).zip inv).filter
        (fun p => REx.gtc p.2 ((10 : ℚ) ^ 6))).map (fun p => p.1.2) ∧
      ∀ k, k < vals.length →
        (c1Low.get? (idxs.getD k 0)).bind CEntry.toFin =
          some (vals.getD k (0, 0))) :=
  ⟨by decide, by decide,
    claim_C1_amended l1abs false ((10 : ℚ) ^ 6) c1Low c1High (by decide) (by decide)⟩

/-- C2: the engine's local spacing array, for every sorted finite low-res
array of length at least 2 and every magnitude field and modulus: one entry
per value, `sigma[0] = |low[0] - low[1]|`,
`sigma[n-1] = |low[n-2] - low[n-1]|`, and
`sigma[j] = 0.5 * (|low[j] - low[j-1]| + |low[j+1] - low[j]|)` at every
interior `j` — proved from the imperative three-assignment construction. -/
theorem claim_C2_sigma_formula (vals : List Cplx) (h : 2 ≤ vals.length) :
    ∃ s : List K, sigmasArr cabs vals = .ok s ∧ s.length = vals.length ∧
      s.getD 0 0 = cabs (csub (vals.getD 0 (0, 0)) (vals.getD 1 (0, 0))) ∧
      s.getD (vals.length - 1) 0 =
        cabs (csub (vals.getD (vals.length - 2) (0, 0))
          (vals.getD (vals.length - 1) (0, 0))) ∧
      ∀ j, 0 < j → j < vals.length - 1 →
        s.getD j 0 = (1 / 2 : K) *
          (cabs (csub (vals.getD j (0, 0)) (vals.getD (j - 1) (0, 0))) +
            cabs (csub (vals.getD (j + 1) (0, 0)) (vals.getD j (0, 0)))) :=
  sigmasArr_ok cabs vals h

/-- Concrete sorted values for the C2 witness. -/
def c2Vals : List Cplx := [(0, 0), (1, 0), (3, 2)]

theorem claim_C2_witness :
    2 ≤ c2Vals.length ∧
    (∃ s : List ℚ, sigmasArr l1abs c2Vals = .ok s ∧ s.length = c2Vals.length ∧
      s.getD 0 0 = l1abs (csub (c2Vals.getD 0 (0, 0)) (c2Vals.getD 1 (0, 0))) ∧
      s.getD (c2Vals.length - 1) 0 =
        l1abs (csub (c2Vals.getD (c2Vals.length - 2) (0, 0))
          (c2Vals.getD (c2Vals.length - 1) (0, 0))) ∧
      ∀ j, 0 < j → j < c2Vals.length - 1 →
        s.getD j 0 = (1 / 2 : ℚ) *
          (l1abs (csub (c2Vals.getD j (0, 0)) (c2Vals.getD (j - 1) (0, 0))) +
            l1abs (csub (c2Vals.getD (j + 1) (0, 0)) (c2Vals.getD j (0, 0))))) :=
  ⟨by decide, claim_C2_sigma_formula l1abs c2Vals (by decide)⟩

/-- Seventeen tagged eigenvalues whose real parts are all equal (imaginary
parts distinct), already in original order. -/
def c6Pairs : List (Cplx × ℕ) :=
  (List.range 17).map (fun k => (((0 : ℚ), ((k : ℕ) : ℚ)), (k : ℕ)))

/-- C6, counterexample: the engine's sort step is not stable.  All seventeen
real parts are equal, so a stable sort would leave the array unchanged, but
`np.argsort`'s default quicksort exceeds its 16-entry insertion-sort cutoff
and its first partition reorders the equal entries. -/
theorem claim_C6_counterexample :
    (c6Pairs.map (fun p => p.1.1) = List.replicate 17 (0 : ℚ)) ∧
    sortPairs c6Pairs ≠ c6Pairs := by decide

/-- C6 (amended: the ascending order by real part holds for every array, but
stability is guaranteed only up to numpy's small-array cutoff): the engine's
sort step always produces a permutation of the tagged eigenvalue pairs
ordered ascending by the real part of the eigenvalue, and for arrays of at
most 16 finite entries — where `aquicksort` runs pure insertion sort — it
produces exactly the stable ascending-by-real-part order; for larger arrays
the relative order of entries with equal real parts is not preserved in
general. -/
theorem claim_C6_amended (ps : List (Cplx × ℕ)) :
    List.Pairwise (fun p q => p.1.1 ≤ q.1.1) (sortPairs ps) ∧
    List.Perm (sortPairs ps) ps ∧
    (ps.length ≤ 16 → sortPairs ps =
      gather ps (specStableArgsort (ps.map (fun p => p.1.1)))) := by
  refine ⟨sortPairs_sorted ps, sortPairs_perm ps, ?_⟩
  intro h
  unfold sortPairs
  rw [npArgsort_eq_stable_of_small _ (by simpa using h)]

/-- Four tagged eigenvalues with a repeated real part, for the C6 witness. -/
def c6Small : List (Cplx × ℕ) := [((3, 0), 0), ((1, 0), 1), ((3, 1), 2), ((0, 5), 3)]

theorem claim_C6_amended_witness :
    c6Small.length ≤ 16 ∧
    List.Pairwise (fun p q => p.1.1 ≤ q.1.1) (sortPairs c6Small) ∧
    List.Perm (sortPairs c6Small) c6Small ∧
    sortPairs c6Small =
      gather c6Small (specStableArgsort (c6Small.map (fun p => p.1.1))) :=
  ⟨by decide, (claim_C6_amended c6Small).1, (claim_C6_amended c6Small).2.1,
    (claim_C6_amended c6Small).2.2 (by decide)⟩

theorem foldl_rmin_pinf (xs : List (REx K)) (h : ∀ y ∈ xs, y = REx.pinf) :
    xs.foldl REx.rmin REx.pinf = REx.pinf := by
  induction xs with
  | nil => rfl
  | cons y ys ih =>
    rw [List.foldl_cons, h y (List.mem_cons_self y ys),
      show REx.rmin (REx.pinf : REx K) REx.pinf = REx.pinf from rfl]
    exact ih (fun x hx => h x (List.mem_cons_of_mem y hx))

theorem nanminV_all_pinf_nan (l : List (REx K))
    (h : ∀ x ∈ l, x = REx.pinf ∨ x = REx.nan) :
    nanminV l = REx.pinf ∨ nanminV l = REx.nan := by
  unfold nanminV
  cases hf : l.filter (fun x => !x.isNan) with
  | nil => exact Or.inr rfl
  | cons x xs =>
    left
    have hall : ∀ y ∈ x :: xs, y = REx.pinf := by
      intro y hy
      have : y ∈ l.filter (fun x => !x.isNan) := by rw [hf]; exact hy
      have hmem := List.mem_filter.mp this
      rcases h y hmem.1 with h1 | h1
      · exact h1
      · rw [h1] at hmem
        simp [REx.isNan] at hmem
    rw [hall x (List.mem_cons_self x xs)]
    exact foldl_rmin_pinf xs (fun y hy => hall y (List.mem_cons_of_mem x hy))

/-- Low-res array with a duplicated eigenvalue for C9. -/
def c9Low : List CEntry :=
  [CEntry.ofFin (1, 0), CEntry.ofFin (1, 0), CEntry.ofFin (5, 0)]

/-- High-res array all of whose entries equal the duplicated low-res
eigenvalue, for C9. -/
def c9High : List CEntry :=
  [CEntry.ofFin (1, 0), CEntry.ofFin (1, 0), CEntry.ofFin (1, 0)]

theorem c9_sorted_low : sortedLowVals c9Low = [((1 : ℚ), (0 : ℚ)), (1, 0), (5, 0)] := by
  decide

theorem c9_sorted_high : sortedHighVals c9High = [((1 : ℚ), (0 : ℚ)), (1, 0), (1, 0)] := by
  decide

theorem c9_sigma : sigmasArr l1abs (sortedLowVals c9Low) = .ok [0, 2, 4] := by
  rw [c9_sorted_low]
  norm_num [sigmasArr, l1abs, csub, List.replicate]

theorem c9_range3 : List.range 3 = [0, 1, 2] := rfl

theorem c9_dord :
    deltaOrdinalE l1abs [((1 : ℚ), (0 : ℚ)), (1, 0), (5, 0)]
      [((1 : ℚ), (0 : ℚ)), (1, 0), (1, 0)] [0, 2, 4] =
      .ok [REx.nan, REx.fin 0, REx.fin 1] := by
  unfold deltaOrdinalE
  rw [show ([((1 : ℚ), (0 : ℚ)), (1, 0), (5, 0)] : List Cplx).length = 3 from rfl,
    c9_range3,
    mapM_eq_map _ (fun j => ([REx.nan, REx.fin 0, REx.fin 1].getD j REx.nan :
      REx ℚ)) [0, 1, 2] ?_]
  · rfl
  · intro j hj
    simp only [List.mem_cons, List.not_mem_nil, or_false] at hj
    rcases hj with rfl | rfl | rfl <;> norm_num [divK, csub, l1abs]

theorem c9_dnear :
    deltaNearE l1abs [((1 : ℚ), (0 : ℚ)), (1, 0), (5, 0)]
      [((1 : ℚ), (0 : ℚ)), (1, 0), (1, 0)] [0, 2, 4] =
      .ok [REx.nan, REx.fin 0, REx.fin 1] := by
  unfold deltaNearE
  rw [show ([((1 : ℚ), (0 : ℚ)), (1, 0), (5, 0)] : List Cplx).length = 3 from rfl,
    c9_range3,
    mapM_eq_map _ (fun j => ([REx.nan, REx.fin 0, REx.fin 1].getD j REx.nan :
      REx ℚ)) [0, 1, 2] ?_]
  · rfl
  · intro j hj
    simp only [List.mem_cons, List.not_mem_nil, or_false] at hj
    rcases hj with rfl | rfl | rfl <;>
      norm_num [divK, csub, l1abs, nanminE, nanminV, REx.isNan, REx.rmin]

theorem c9_inv :
    inverseDriftsOf l1abs false c9Low c9High =
      .ok [REx.nan, REx.pinf, REx.fin 1] := by
  unfold inverseDriftsOf
  rw [c9_sigma, except_bind_ok, c9_sorted_low, c9_sorted_high]
  rw [c9_dord, except_bind_ok, c9_dnear, except_bind_ok]
  norm_num [REx.inv1]
  rfl

/-- C9, counterexample: the duplicated low-res eigenvalue `1` has zero local
spacing (`sigma[0] = 0`), but because it also coincides with every finite
high-res eigenvalue, all its distance/sigma quotients are `0/0 = NaN`, so
its nearest drift ratio is `NaN` — not the infinite drift (inverse drift 0)
the claim asserts; it is nonetheless still rejected.  All values lie on the
real axis, where the witnesses' modulus agrees with the Euclidean one
(`l1abs_eq_euclidAbs_on_real_axis`). -/
theorem claim_C9_counterexample :
    sigmasArr l1abs (sortedLowVals c9Low) = .ok [0, 2, 4] ∧
    inverseDriftsOf l1abs false c9Low c9High =
      .ok [REx.nan, REx.pinf, REx.fin 1] := ⟨c9_sigma, c9_inv⟩

/-- C9 (amended: a zero spacing yields a non-finite drift — `+inf`, giving
inverse drift `0`, unless every compared distance is also zero, giving
`NaN`): for any nonnegative modulus and threshold, when the engine's
preconditions hold and `sigma[j] = 0`, the inverse drift at `j` is `0` or
`NaN`, position `j` fails the acceptance test, and the engine still returns
normally (the zero division and the all-`NaN` `nanmin` reduction are
warnings, not errors). -/
theorem claim_C9_amended (uo : Bool) (thr : K) (lowRaw hiRaw : List CEntry)
    (hpos : ∀ z, 0 ≤ cabs z) (hthr : 0 ≤ thr)
    (h2 : 2 ≤ finCount lowRaw) (hge : finCount lowRaw ≤ finCount hiRaw)
    (j : ℕ) (hj : j < finCount lowRaw)
    (sig : List K) (hsig : sigmasArr cabs (sortedLowVals lowRaw) = .ok sig)
    (hz : sig.getD j 0 = 0) :
    ∃ inv : List (REx K),
      inverseDriftsOf cabs uo lowRaw hiRaw = .ok inv ∧
      (inv.getD j REx.nan = REx.fin 0 ∨ inv.getD j REx.nan = REx.nan) ∧
      REx.gtc (inv.getD j REx.nan) thr = false ∧
      (∃ r, discardSpurious cabs uo thr lowRaw hiRaw = .ok r) := by
  obtain ⟨sig', hsig', hinv⟩ := inverseDriftsOf_ok_char cabs uo lowRaw hiRaw h2 hge
  rw [hsig] at hsig'
  injection hsig' with he
  subst he
  have hjn : j < (sortedLowVals lowRaw).length := by
    rw [sortedLowVals_length]
    exact hj
  have hdiv : ∀ a : K, divK a (sig.getD j 0) = REx.pinf ∨
      divK a (sig.getD j 0) = REx.nan ∨ a < 0 := by
    intro a
    rw [hz]
    unfold divK
    rw [if_pos rfl]
    rcases lt_trichotomy a 0 with h | h | h
    · exact Or.inr (Or.inr h)
    · subst h
      rw [if_neg (lt_irrefl 0), if_neg (lt_irrefl 0)]
      exact Or.inr (Or.inl rfl)
    · rw [if_pos h]
      exact Or.inl rfl
  have hdiv' : ∀ z : Cplx, divK (cabs z) (sig.getD j 0) = REx.pinf ∨
      divK (cabs z) (sig.getD j 0) = REx.nan := by
    intro z
    rcases hdiv (cabs z) with h | h | h
    · exact Or.inl h
    · exact Or.inr h
    · exact absurd (hpos z) (not_le.mpr h)
  have hkey : ∀ d : REx K, (d = REx.pinf ∨ d = REx.nan) →
      (REx.inv1 d = REx.fin 0 ∨ REx.inv1 d = REx.nan) ∧
        REx.gtc (REx.inv1 d) thr = false := by
    intro d hd
    rcases hd with rfl | rfl
    · refine ⟨Or.inl rfl, ?_⟩
      show decide (thr < 0) = false
      simpa using not_lt.mpr hthr
    · exact ⟨Or.inr rfl, rfl⟩
  have hBC : ∀ d : REx K, (d = REx.pinf ∨ d = REx.nan) →
      ∀ L : List (REx K), L.getD j REx.nan = REx.inv1 d →
      (L.getD j REx.nan = REx.fin 0 ∨ L.getD j REx.nan = REx.nan) ∧
        REx.gtc (L.getD j REx.nan) thr = false := by
    intro d hd L hL
    rw [hL]
    exact hkey d hd
  have hj'' : j < (List.range (sortedLowVals lowRaw).length).length := by
    rw [List.length_range]
    exact hjn
  cases uo with
  | false =>
    rw [if_neg Bool.false_ne_true] at hinv
    refine ⟨_, hinv, ?_⟩
    have hL : (((List.range (sortedLowVals lowRaw).length).map (fun j' =>
        nanminV ((sortedHighVals hiRaw).map (fun h =>
          divK (cabs (csub ((sortedLowVals lowRaw).getD j' (0, 0)) h))
            (sig.getD j' 0))))).map REx.inv1).getD j REx.nan =
        REx.inv1 (nanminV ((sortedHighVals hiRaw).map (fun h =>
          divK (cabs (csub ((sortedLowVals lowRaw).getD j (0, 0)) h))
            (sig.getD j 0)))) := by
      rw [List.map_map, map_getD_lt _ _ _ 0 j hj'']
      rw [Function.comp_apply, List.getD_eq_getElem _ 0 hj'', List.getElem_range]
    obtain ⟨hB, hC⟩ := hBC _ (nanminV_all_pinf_nan _ (fun x hx => by
        rcases List.mem_map.mp hx with ⟨z, _, rfl⟩
        exact hdiv' _)) _ hL
    refine ⟨hB, hC, ?_⟩
    rw [discardSpurious_char, hinv, except_map_ok]
    exact ⟨_, rfl⟩
  | true =>
    rw [if_pos rfl] at hinv
    refine ⟨_, hinv, ?_⟩
    have hL : (((List.range (sortedLowVals lowRaw).length).map (fun j' =>
        divK (cabs (csub ((sortedLowVals lowRaw).getD j' (0, 0))
          ((sortedHighVals hiRaw).getD j' (0, 0)))) (sig.getD j' 0))).map
          REx.inv1).getD j REx.nan =
        REx.inv1 (divK (cabs (csub ((sortedLowVals lowRaw).getD j (0, 0))
          ((sortedHighVals hiRaw).getD j (0, 0)))) (sig.getD j 0)) := by
      rw [List.map_map, map_getD_lt _ _ _ 0 j hj'']
      rw [Function.comp_apply, List.getD_eq_getElem _ 0 hj'', List.getElem_range]
    obtain ⟨hB, hC⟩ := hBC _ (hdiv' _) _ hL
    refine ⟨hB, hC, ?_⟩
    rw [discardSpurious_char, hinv, except_map_ok]
    exact ⟨_, rfl⟩

theorem claim_C9_amended_witness :
    (∀ z : Cplx, 0 ≤ l1abs z) ∧ (0 : ℚ) ≤ (10 : ℚ) ^ 6 ∧
    2 ≤ finCount c9Low ∧ finCount c9Low ≤ finCount c9High ∧
    0 < finCount c9Low ∧
    sigmasArr l1abs (sortedLowVals c9Low) = .ok [0, 2, 4] ∧
    ([0, 2, 4] : List ℚ).getD 0 0 = 0 ∧
    (∃ inv : List (REx ℚ),
      inverseDriftsOf l1abs false c9Low c9High = .ok inv ∧
      (inv.getD 0 REx.nan = REx.fin 0 ∨ inv.getD 0 REx.nan = REx.nan) ∧
      REx.gtc (inv.getD 0 REx.nan) ((10 : ℚ) ^ 6) = false ∧
      (∃ r, discardSpurious l1abs false ((10 : ℚ) ^ 6) c9Low c9High = .ok r)) :=
  ⟨fun z => add_nonneg (abs_nonneg _) (abs_nonneg _), by norm_num, by decide,
    by decide, by decide, c9_sigma, by decide,
    claim_C9_amended l1abs false ((10 : ℚ) ^ 6) c9Low c9High
      (fun z => add_nonneg (abs_nonneg _) (abs_nonneg _)) (by norm_num)
      (by decide) (by decide) 0 (by decide) [0, 2, 4] c9_sigma (by decide)⟩

/-! ### C7: singular values of `z·I - diag(1, 2)` at `z = 0` -/

/-- The reduced operator `diag(1, 2)` of the spec's pseudospectrum
scenario. -/
def dM : Matrix (Fin 2) (Fin 2) ℂ := Matrix.diagonal ![1, 2]

theorem zPt_zero : zPt 0 0 = 0 := by
  simp [zPt]

theorem M0_eq : zPt 0 0 • (1 : Matrix (Fin 2) (Fin 2) ℂ) - dM = -dM := by
  rw [zPt_zero, zero_smul, zero_sub]

theorem vnorm_pair (x : Fin 2 → ℂ) :
    vnorm x = Real.sqrt (Complex.normSq (x 0) + Complex.normSq (x 1)) := by
  unfold vnorm
  rw [Fin.sum_univ_two]

theorem normSq_two : Complex.normSq (2 : ℂ) = 4 := by
  rw [show (2 : ℂ) = ((2 : ℝ) : ℂ) by norm_num, Complex.normSq_ofReal]
  norm_num

theorem vnorm_neg_dM (x : Fin 2 → ℂ) :
    vnorm ((-dM).mulVec x) =
      Real.sqrt (Complex.normSq (x 0) + 4 * Complex.normSq (x 1)) := by
  rw [vnorm_pair]
  have h0 : (-dM).mulVec x 0 = -(x 0) := by
    simp [dM, Matrix.neg_mulVec, Matrix.mulVec_diagonal]
  have h1 : (-dM).mulVec x 1 = -(2 * x 1) := by
    simp [dM, Matrix.neg_mulVec, Matrix.mulVec_diagonal]
  rw [h0, h1, Complex.normSq_neg, Complex.normSq_neg, Complex.normSq_mul,
    normSq_two]

theorem one_mem_opImage : (1 : ℝ) ∈ opImage (-dM) := by
  refine ⟨![1, 0], ?_, ?_⟩
  · rw [vnorm_pair]
    norm_num
  · rw [vnorm_neg_dM]
    norm_num

theorem two_mem_opImage : (2 : ℝ) ∈ opImage (-dM) := by
  refine ⟨![0, 1], ?_, ?_⟩
  · rw [vnorm_pair]
    norm_num
  · rw [vnorm_neg_dM]
    rw [show Complex.normSq (![(0 : ℂ), 1] 0) + 4 * Complex.normSq (![(0 : ℂ), 1] 1)
        = 4 by norm_num]
    rw [show (4 : ℝ) = 2 ^ 2 by norm_num, Real.sqrt_sq (by norm_num)]

theorem opImage_bounds {r : ℝ} (hr : r ∈ opImage (-dM)) : 1 ≤ r ∧ r ≤ 2 := by
  obtain ⟨x, hx, rfl⟩ := hr
  have ha := Complex.normSq_nonneg (x 0)
  have hb := Complex.normSq_nonneg (x 1)
  have hsum : Complex.normSq (x 0) + Complex.normSq (x 1) = 1 := by
    rw [vnorm_pair] at hx
    nlinarith [Real.sq_sqrt (by positivity : (0 : ℝ) ≤
      Complex.normSq (x 0) + Complex.normSq (x 1)), hx]
  rw [vnorm_neg_dM]
  constructor
  · rw [show (1 : ℝ) = Real.sqrt 1 from (Real.sqrt_one).symm]
    apply Real.sqrt_le_sqrt
    nlinarith
  · rw [show (2 : ℝ) = Real.sqrt 4 by
      rw [show (4 : ℝ) = 2 ^ 2 by norm_num, Real.sqrt_sq (by norm_num)]]
    apply Real.sqrt_le_sqrt
    nlinarith

theorem sInf_opImage : sInf (opImage (-dM)) = 1 :=
  IsGLB.csInf_eq
    ⟨fun _ hr => (opImage_bounds hr).1, fun _ hc => hc one_mem_opImage⟩
    ⟨1, one_mem_opImage⟩

theorem sSup_opImage : sSup (opImage (-dM)) = 2 :=
  IsLUB.csSup_eq
    ⟨fun _ hr => (opImage_bounds hr).2, fun _ hc => hc two_mem_opImage⟩
    ⟨2, two_mem_opImage⟩

theorem npMatNorm_neg2_M0 : npMatNorm (-2) (zPt 0 0 • 1 - dM) = 1 := by
  rw [M0_eq]
  unfold npMatNorm
  rw [if_neg (by decide), if_pos rfl]
  exact sInf_opImage

theorem npMatNorm_2_M0 : npMatNorm 2 (zPt 0 0 • 1 - dM) = 2 := by
  rw [M0_eq]
  unfold npMatNorm
  rw [if_pos rfl]
  exact sSup_opImage

/-- C7, counterexample: on the 1-point grid `z = 0` with the reduced operator
`diag(1, 2)`, the code stores `np.linalg.norm(z*I - Gmu, ord=-2)` — the
smallest singular value, here `1` — whereas the matrix 2-norm the claim
asserts is the largest singular value, here `2`; the two grids differ. -/
theorem claim_C7_counterexample :
    pseudoGrid dM [0] [0] ≠ pseudoGridSpec2Norm dM [0] [0] := by
  have h1 : pseudoGrid dM [(0 : ℝ)] [(0 : ℝ)] =
      .ok [[npMatNorm (-2) (zPt 0 0 • 1 - dM)]] := rfl
  have h2 : pseudoGridSpec2Norm dM [(0 : ℝ)] [(0 : ℝ)] =
      .ok [[npMatNorm 2 (zPt 0 0 • 1 - dM)]] := rfl
  intro h
  rw [h1, h2] at h
  have h3 : npMatNorm (-2) (zPt 0 0 • 1 - dM) =
      npMatNorm 2 (zPt 0 0 • 1 - dM) := by
    have := Except.ok.inj h
    have := List.cons.inj this
    have := List.cons.inj this.1
    exact this.1
  rw [npMatNorm_neg2_M0, npMatNorm_2_M0] at h3
  norm_num at h3

/-! ### C7: characterizing the grid fill -/

theorem full_overwrite {α : Type} (d : α) (vs row : List α)
    (h : vs.length = row.length) :
    (vs.enum).foldl (fun acc p => acc.set p.1 p.2) row = vs := by
  rw [show vs.enum = vs.enumFrom 0 from rfl]
  obtain ⟨f1, _, f3⟩ := enumFrom_foldl_set d vs 0 row
  apply List.ext_getElem
  · rw [f1]
    omega
  · intro k h1 h2
    rw [← List.getD_eq_getElem _ d h1, ← List.getD_eq_getElem _ d h2]
    have := f3 k (Nat.zero_le k) (by omega) (by omega)
    simpa using this

theorem inner_fill (g : ℝ → ℝ) :
    ∀ (xs : List ℝ) (i0 j : ℕ) (R : List (List ℝ)),
      j < R.length → i0 + xs.length ≤ (R.getD j []).length →
      (xs.enumFrom i0).foldlM (fun R ix => pyWrite2D R j ix.1 (g ix.2)) R =
        .ok (R.set j ((((xs.map g).enumFrom i0)).foldl
          (fun acc p => acc.set p.1 p.2) (R.getD j [])))
  | [], i0, j, R, hj, _ => by
    simp only [List.enumFrom_nil, List.foldlM_nil, List.map_nil, List.foldl_nil]
    rw [set_getD_self _ _ hj]
    rfl
  | x :: xs, i0, j, R, hj, hlen => by
    simp only [List.enumFrom_cons, List.foldlM_cons, List.map_cons,
      List.foldl_cons]
    have hi0 : i0 < (R.getD j []).length := by
      simp only [List.length_cons] at hlen
      omega
    rw [show pyWrite2D R j i0 (g x) = .ok (R.set j ((R.getD j []).set i0 (g x)))
        from by unfold pyWrite2D; rw [if_pos hj, if_pos hi0], except_bind_ok]
    rw [inner_fill g xs (i0 + 1) j (R.set j ((R.getD j []).set i0 (g x)))
      (by rw [List.length_set]; exact hj)
      (by
        rw [getD_set_self' _ _ _ hj, List.length_set]
        simp only [List.length_cons] at hlen
        omega)]
    rw [List.set_set, getD_set_self' _ _ _ hj]

theorem outer_fill {n : ℕ} (L : Matrix (Fin n) (Fin n) ℂ) (xx : List ℝ) :
    ∀ (ys : List ℝ) (k : ℕ) (R : List (List ℝ)),
      (∀ m, k ≤ m → m < k + ys.length →
        m < R.length ∧ xx.length ≤ (R.getD m []).length) →
      ∃ R' : List (List ℝ),
        (ys.enumFrom k).foldlM (fun R jy =>
          xx.enum.foldlM (fun R ix =>
            pyWrite2D R jy.1 ix.1
              (npMatNorm (-2) (zPt ix.2 jy.2 • (1 : Matrix (Fin n) (Fin n) ℂ)
                - L))) R) R = .ok R' ∧
        R'.length = R.length ∧
        (∀ m, m < k ∨ k + ys.length ≤ m → R'.getD m [] = R.getD m []) ∧
        (∀ m, k ≤ m → m < k + ys.length →
          R'.getD m [] = ((xx.map (fun x =>
            npMatNorm (-2) (zPt x (ys.getD (m - k) 0) •
              (1 : Matrix (Fin n) (Fin n) ℂ) - L))).enum).foldl
            (fun acc p => acc.set p.1 p.2) (R.getD m []))
  | [], k, R, _ => by
    refine ⟨R, rfl, rfl, fun m _ => rfl, fun m h1 h2 => ?_⟩
    simp only [List.length_nil] at h2
    omega
  | y :: ys, k, R, hcond => by
    simp only [List.enumFrom_cons, List.foldlM_cons]
    obtain ⟨hk1, hk2⟩ := hcond k (le_refl k) (by simp)
    have hinner := inner_fill (fun x => npMatNorm (-2)
      (zPt x y • (1 : Matrix (Fin n) (Fin n) ℂ) - L)) xx 0 k R hk1
      (by simpa using hk2)
    rw [show xx.enumFrom 0 = xx.enum from rfl] at hinner
    rw [hinner, except_bind_ok]
    set R1 := R.set k (((xx.map (fun x =>
      npMatNorm (-2) (zPt x y • (1 : Matrix (Fin n) (Fin n) ℂ) - L))).enum).foldl
      (fun acc p => acc.set p.1 p.2) (R.getD k [])) with hR1
    obtain ⟨R', hfold, hlen, huntouched, hmid⟩ := outer_fill L xx ys (k + 1) R1
      (by
        intro m hm1 hm2
        have hne : k ≠ m := by omega
        obtain ⟨c1, c2⟩ := hcond m (by omega) (by simp; omega)
        refine ⟨by rw [hR1, List.length_set]; exact c1, ?_⟩
        rw [hR1, getD_set_ne' _ _ _ hne]
        exact c2)
    refine ⟨R', hfold, by rw [hlen, hR1, List.length_set], ?_, ?_⟩
    · intro m hm
      simp only [List.length_cons] at hm
      have hne : k ≠ m := by omega
      rw [huntouched m (by omega), hR1, getD_set_ne' _ _ _ hne]
    · intro m hm1 hm2
      simp only [List.length_cons] at hm2
      by_cases heq : m = k
      · subst heq
        rw [huntouched m (Or.inl (by omega)), hR1, getD_set_self' _ _ _ hk1]
        simp
      · have hmk : k + 1 ≤ m := by omega
        rw [hmid m hmk (by omega), hR1, getD_set_ne' _ _ _ (by omega)]
        have harg : ys.getD (m - (k + 1)) 0 = (y :: ys).getD (m - k) 0 := by
          have : m - k = (m - (k + 1)) + 1 := by omega
          rw [this]
          rfl
        rw [harg]

/-- C7 (amended): for every square matrix `Gmu` and every square grid
(`len(xx) = len(yy)`), `_pseudo` fills the output at position
`[row = y-index, col = x-index]` with `np.linalg.norm(z*I - Gmu, ord=-2)` —
the smallest singular value of `z·I - Gmu`, not its matrix 2-norm — with the
outer loop running over the imaginary grid points and the inner loop over the
real grid points; and on the non-square nonempty grid `xx = [0]`,
`yy = [0, 1]` the write `R[1, 0]` into the `len(xx) × len(yy)` allocation
raises `IndexError` instead of completing. -/
theorem claim_C7_amended :
    (∀ (n : ℕ) (L : Matrix (Fin n) (Fin n) ℂ) (xx yy : List ℝ),
      xx.length = yy.length →
      ∃ R : List (List ℝ), pseudoGrid L xx yy = .ok R ∧
        R.length = xx.length ∧
        ∀ j, j < yy.length →
          (R.getD j []).length = xx.length ∧
          ∀ i, i < xx.length →
            (R.getD j []).getD i 0 =
              npMatNorm (-2) (zPt (xx.getD i 0) (yy.getD j 0) •
                (1 : Matrix (Fin n) (Fin n) ℂ) - L)) ∧
    pseudoGrid dM [0] [0, 1] = .error .indexError := by
  constructor
  · intro n L xx yy hlen
    obtain ⟨R', hfold, hlen', _, hmid⟩ := outer_fill L xx yy 0
      (List.replicate xx.length (List.replicate yy.length (0 : ℝ)))
      (by
        intro m _ hm
        simp only [List.length_replicate]
        refine ⟨by omega, ?_⟩
        rw [getD_replicate _ _ (show m < xx.length by omega)]
        simp [hlen])
    refine ⟨R', ?_, by rw [hlen']; simp, ?_⟩
    · simp only [pseudoGrid]
      exact hfold
    · intro j hj
      have hrow := hmid j (Nat.zero_le j) (by omega)
      rw [Nat.sub_zero] at hrow
      rw [getD_replicate _ _ (show j < xx.length by omega)] at hrow
      rw [full_overwrite (0 : ℝ) _ _ (by simp [hlen])] at hrow
      rw [hrow]
      refine ⟨by simp, ?_⟩
      intro i hi
      rw [map_getD_lt _ _ _ (0 : ℝ) i hi]
  · rfl

/-- Witness for C7 (amended): the square-grid conjunct applied at the
concrete `2 × 2` operator `diag(1, 2)` on the 1-point grid `z = 0`. -/
theorem claim_C7_amended_witness :
    ∃ R : List (List ℝ), pseudoGrid dM [(0 : ℝ)] [(0 : ℝ)] = .ok R ∧
      R.length = ([(0 : ℝ)]).length ∧
      ∀ j, j < ([(0 : ℝ)]).length →
        (R.getD j []).length = ([(0 : ℝ)]).length ∧
        ∀ i, i < ([(0 : ℝ)]).length →
          (R.getD j []).getD i 0 =
            npMatNorm (-2) (zPt (([(0 : ℝ)]).getD i 0) (([(0 : ℝ)]).getD j 0) •
              (1 : Matrix (Fin 2) (Fin 2) ℂ) - dM) :=
  claim_C7_amended.1 2 dM [0] [0] rfl

end Eigentools
